import Mathlib

/-!
# ChaCha20 (`src/main.c`): shallow embedding and verified properties

The C program works on `uint8` and `uint32` values.  They are embedded as natural
numbers, with an explicit `% 2^32` (resp. `% 256`) wherever the C arithmetic wraps or a
value is stored back into a narrower type.  Arrays (`uint8 *key`, `uint32 matrix[16]`,
the caller's buffer) are lists; a pointer into an array is the pair of the list and an
index.  The `assert` macro of the source ends in `__builtin_trap()`: a function that
can reach an assertion returns an `Option`, and `none` is the fatal path.

The embedding is the default build of the source (the `BIG_ENDIAN` and `DEBUG_PRINT`
branches are not compiled) on a little-endian host, which is how the demonstration
program is run.  The `BIG_ENDIAN` build of `build_block` has a section of its own, with
names ending in `_be`.
-/

namespace ChaCha

/-! ## Data model -/

/-- Every element of the list is a `uint8` value. -/
def is_bytes (xs : List Nat) : Prop := ∀ x ∈ xs, x < 256

instance (xs : List Nat) : Decidable (is_bytes xs) := by
  unfold is_bytes; infer_instance

/-- Every element of the list is a `uint32` value. -/
def is_words (xs : List Nat) : Prop := ∀ x ∈ xs, x < 2 ^ 32

instance (xs : List Nat) : Decidable (is_words xs) := by
  unfold is_words; infer_instance

/-- A key as the program expects it: 32 bytes. -/
def valid_key (key : List Nat) : Prop := key.length = 32 ∧ is_bytes key

instance (key : List Nat) : Decidable (valid_key key) := by
  unfold valid_key; infer_instance

/-- A nonce as the program expects it: 12 bytes. -/
def valid_nonce (nonce : List Nat) : Prop := nonce.length = 12 ∧ is_bytes nonce

instance (nonce : List Nat) : Decidable (valid_nonce nonce) := by
  unfold valid_nonce; infer_instance

/-! ## The source functions -/

/-- `rotl_uint32` (main.c:41-45).  `assert(n < 32, ...)` guards the body
`(x<<n) | (x>>(32-n))`; `x<<n` is truncated to 32 bits.  For `n = 0` the assertion
passes and the C expression shifts right by 32; the embedding gives that shift its
mathematical value (0 on a 32-bit word), so that the result is `x`, which is also
what a shift count taken modulo 32 gives. -/
def rotl_uint32 (x n : Nat) : Option Nat :=
  if n < 32 then some (((x <<< n) % 2 ^ 32) ||| (x >>> (32 - n))) else none

/-- `quarter_round` (main.c:47-64) on the four values its pointer arguments address:
the result holds the four values written back through `a_`, `b_`, `c_`, `d_`. -/
def quarter_round (a b c d : Nat) : Option (Nat × Nat × Nat × Nat) := do
  let a := (a + b) % 2 ^ 32
  let d := d ^^^ a
  let d ← rotl_uint32 d 16
  let c := (c + d) % 2 ^ 32
  let b := b ^^^ c
  let b ← rotl_uint32 b 12
  let a := (a + b) % 2 ^ 32
  let d := d ^^^ a
  let d ← rotl_uint32 d 8
  let c := (c + d) % 2 ^ 32
  let b := b ^^^ c
  let b ← rotl_uint32 b 7
  pure (a, b, c, d)

/-- A call `quarter_round(temp_m + i, temp_m + j, temp_m + k, temp_m + l)`: the four
words are loaded from the array, mixed, and stored back at the same places. -/
def quarter_round_at (m : List Nat) (i j k l : Nat) : Option (List Nat) := do
  let (a, b, c, d) ← quarter_round (m.getD i 0) (m.getD j 0) (m.getD k 0) (m.getD l 0)
  pure ((((m.set i a).set j b).set k c).set l d)

/-- `pack4_uint8` (main.c:66-77) applied to `src + off`.  The bytes are promoted to
`int`, shifted and or-ed, and the result is converted to `uint32`.  For
`src[3] >= 0x80` the shift by 24 leaves the range of `int`; the embedding takes the
two's-complement bit pattern, which the conversion to `uint32` keeps. -/
def pack4_uint8 (src : List Nat) (off : Nat) : Nat :=
  ((src.getD (off + 3) 0 <<< 24) ||| (src.getD (off + 2) 0 <<< 16) |||
    (src.getD (off + 1) 0 <<< 8) ||| (src.getD off 0 <<< 0)) % 2 ^ 32

/-- The bytes of the string literal `"expand 32-byte k"` (main.c:82). -/
def constant : List Nat :=
  [0x65, 0x78, 0x70, 0x61, 0x6e, 0x64, 0x20, 0x33,
   0x32, 0x2d, 0x62, 0x79, 0x74, 0x65, 0x20, 0x6b]

/-- The sixteen stores `*dest++ = ...` of `build_block` (main.c:84-108), in order. -/
def init_matrix (key nonce : List Nat) (counter : Nat) : List Nat :=
  [pack4_uint8 constant 0, pack4_uint8 constant 4,
   pack4_uint8 constant 8, pack4_uint8 constant 12,
   pack4_uint8 key 0, pack4_uint8 key 4, pack4_uint8 key 8, pack4_uint8 key 12,
   pack4_uint8 key 16, pack4_uint8 key 20, pack4_uint8 key 24, pack4_uint8 key 28,
   counter,
   pack4_uint8 nonce 0, pack4_uint8 nonce 4, pack4_uint8 nonce 8]

/-- The body of the `while` loop of `build_block` after `rounds -= 2`
(main.c:131-138): eight quarter rounds on the working copy. -/
def double_round (t : List Nat) : Option (List Nat) := do
  let t ← quarter_round_at t 0 4 8 12
  let t ← quarter_round_at t 1 5 9 13
  let t ← quarter_round_at t 2 6 10 14
  let t ← quarter_round_at t 3 7 11 15
  let t ← quarter_round_at t 0 5 10 15
  let t ← quarter_round_at t 1 6 11 12
  let t ← quarter_round_at t 2 7 8 13
  let t ← quarter_round_at t 3 4 9 14
  pure t

/-- The loop `while(rounds > 0) { rounds -= 2; ... }` (main.c:128-139) on the working
copy `temp_m`; `rounds` is a signed integer. -/
def round_loop (rounds : Int) (t : List Nat) : Option (List Nat) :=
  if 0 < rounds then
    match double_round t with
    | some t1 => round_loop (rounds - 2) t1
    | none => none
  else some t
termination_by rounds.toNat
decreasing_by omega

/-- The loop `matrix[index] += temp_m[index]` (main.c:141-154). -/
def feed_forward (matrix t : List Nat) : List Nat :=
  List.zipWith (fun x y => (x + y) % 2 ^ 32) matrix t

/-- `build_block` (main.c:79-168): the new contents of `matrix`.  The assertion
`(dest - matrix) == 16` counts the words stored by the initialisation. -/
def build_block (key nonce : List Nat) (counter : Nat) (rounds : Int) :
    Option (List Nat) :=
  let matrix := init_matrix key nonce counter
  if matrix.length = 16 then
    match round_loop rounds matrix with
    | some t => some (feed_forward matrix t)
    | none => none
  else none

/-- Byte `i` of the matrix read through `uint8 *block = (uint8 *)matrix`
(main.c:175, 185), words laid out least significant byte first. -/
def block_byte (matrix : List Nat) (i : Nat) : Nat :=
  (matrix.getD (i / 4) 0 >>> (8 * (i % 4))) % 256

/-- The `for` loop of `chacha_encrypt_internal` (main.c:177-186) from position `index`
on: `rest` holds `buffer[index..]`, the result holds the bytes stored there. -/
def encrypt_loop (key nonce : List Nat) (rounds : Int) :
    Nat → Nat → List Nat → List Nat → Option (List Nat)
  | _, _, _, [] => some []
  | index, block_counter, matrix, b :: rest =>
    let mod := index % 64
    let step : Option (List Nat × Nat) :=
      if mod = 0 then
        match build_block key nonce block_counter rounds with
        | some m => some (m, (block_counter + 1) % 2 ^ 32)
        | none => none
      else some (matrix, block_counter)
    match step with
    | some (m, ctr) =>
      match encrypt_loop key nonce rounds (index + 1) ctr m rest with
      | some out => some (((b ^^^ block_byte m mod) % 256) :: out)
      | none => none
    | none => none

/-- `chacha_encrypt_internal` (main.c:171-187): the contents of `buffer` on return;
`matrix` starts zeroed. -/
def chacha_encrypt_internal (key nonce : List Nat) (block_counter : Nat) (rounds : Int)
    (buffer : List Nat) : Option (List Nat) :=
  encrypt_loop key nonce rounds 0 block_counter (List.replicate 16 0) buffer

/-- The nonce hard-coded in `chacha_encrypt` (main.c:200). -/
def fixed_nonce : List Nat :=
  [0x00, 0x00, 0x00, 0x00, 0x00, 0x00, 0x00, 0x4a, 0x00, 0x00, 0x00, 0x00]

/-- `chacha_encrypt` (main.c:189-204). -/
def chacha_encrypt (key : List Nat) (key_count : Nat) (buffer : List Nat) :
    Option (List Nat) :=
  if key_count = 32 then chacha_encrypt_internal key fixed_nonce 1 20 buffer else none

/-- The key of the demonstration program (main.c:208). -/
def demo_key : List Nat :=
  [0x00, 0x01, 0x02, 0x03, 0x04, 0x05, 0x06, 0x07, 0x08, 0x09, 0x0a, 0x0b, 0x0c, 0x0d,
   0x0e, 0x0f, 0x10, 0x11, 0x12, 0x13, 0x14, 0x15, 0x16, 0x17, 0x18, 0x19, 0x1a, 0x1b,
   0x1c, 0x1d, 0x1e, 0x1f]

/-- The array `message` of the demonstration program (main.c:212). -/
def demo_message : List Nat :=
  [0x6e, 0x2e, 0x35, 0x9a, 0x25, 0x68, 0xf9, 0x80, 0x41, 0xba, 0x07, 0x28, 0xdd, 0x0d,
   0x69, 0x81, 0xe9, 0x7e, 0x7a, 0xec, 0x1d, 0x43, 0x60, 0xc2, 0x0a, 0x27, 0xaf, 0xcc,
   0xfd, 0x9f, 0xae, 0x0b, 0xf9, 0x1b, 0x65, 0xc5, 0x52, 0x47, 0x33, 0xab, 0x8f, 0x59,
   0x3d, 0xab, 0xcd, 0x62, 0xb3, 0x57, 0x16, 0x39, 0xd6, 0x24, 0xe6, 0x51, 0x52, 0xab,
   0x8f, 0x53, 0x0c, 0x35, 0x9f, 0x08, 0x61, 0xd8, 0x07, 0xca, 0x0d, 0xbf, 0x50, 0x0d,
   0x6a, 0x61, 0x56, 0xa3, 0x8e, 0x08, 0x8a, 0x22, 0xb6, 0x5e, 0x52, 0xbc, 0x51, 0x4d,
   0x16, 0xcc, 0xf8, 0x06, 0x81, 0x8c, 0xe9, 0x1a, 0xb7, 0x79, 0x37, 0x36, 0x5a, 0xf9,
   0x0b, 0xbf, 0x74, 0xa3, 0x5b, 0xe6, 0xb4, 0x0b, 0x8e, 0xed, 0xf2, 0x78, 0x5e, 0x42,
   0x87, 0x4d]

/-- The call `chacha_encrypt(key, array_count(key), buffer, message_count)` of `main`
(main.c:213-225): the first `message_count` bytes of `buffer` on return. -/
def demo_run : Option (List Nat) :=
  chacha_encrypt demo_key demo_key.length demo_message

/-! ## The loop with its calls and the buffer memory recorded

`encrypt_loop` gives the bytes stored on return.  The definitions of this section
follow the same code and record, besides, what the properties on the sequence of
`build_block` calls and on the buffer at a trap speak about. -/

/-- What is known when the `for` loop of `chacha_encrypt_internal` stops: the bytes
held by `buffer[index..]`, the counters `build_block` was invoked with, in order, the
value of `block_counter`, and whether the loop stopped in a trap rather than by
`index` reaching `buffer_count`. -/
structure LoopRun where
  buffer : List Nat
  calls : List Nat
  block_counter : Nat
  trapped : Bool

/-- The `for` loop of `chacha_encrypt_internal` (main.c:177-186) from position `index`
on, as `encrypt_loop`, recording the calls.  At a trap inside `build_block` the bytes
from `index` on have not been written. -/
def encrypt_loop_run (key nonce : List Nat) (rounds : Int) :
    Nat → Nat → List Nat → List Nat → LoopRun
  | _, block_counter, _, [] => ⟨[], [], block_counter, false⟩
  | index, block_counter, matrix, b :: rest =>
    let mod := index % 64
    if mod = 0 then
      match build_block key nonce block_counter rounds with
      | some m =>
        let r := encrypt_loop_run key nonce rounds (index + 1)
          ((block_counter + 1) % 2 ^ 32) m rest
        ⟨((b ^^^ block_byte m mod) % 256) :: r.buffer, block_counter :: r.calls,
          r.block_counter, r.trapped⟩
      | none => ⟨b :: rest, [block_counter], block_counter, true⟩
    else
      let r := encrypt_loop_run key nonce rounds (index + 1) block_counter matrix rest
      ⟨((b ^^^ block_byte matrix mod) % 256) :: r.buffer, r.calls, r.block_counter,
        r.trapped⟩

/-- `chacha_encrypt_internal` (main.c:171-187) with the calls recorded. -/
def chacha_encrypt_internal_run (key nonce : List Nat) (block_counter : Nat) (rounds : Int)
    (buffer : List Nat) : LoopRun :=
  encrypt_loop_run key nonce rounds 0 block_counter (List.replicate 16 0) buffer

/-- `chacha_encrypt` (main.c:189-204): the contents of the caller's buffer when the
function stops, and whether it stopped in a trap.  The assertion on `key_count` is
the first statement, before anything is written. -/
def chacha_encrypt_run (key : List Nat) (key_count : Nat) (buffer : List Nat) :
    List Nat × Bool :=
  if key_count = 32 then
    let r := chacha_encrypt_internal_run key fixed_nonce 1 20 buffer
    (r.buffer, r.trapped)
  else (buffer, true)

/-! ## The BIG_ENDIAN build

With `BIG_ENDIAN` defined, `build_block` stores `bswap_32(counter)` (main.c:100-101) and
swaps every word after the final addition (main.c:145-153).  On the big-endian host
this build is meant for, `(uint8 *)matrix` shows every word most significant byte
first. -/

/-- `bswap_32` of the C library header `<byteswap.h>` (main.c:38): the 32-bit word
with the four bytes of `x` in reverse order. -/
def bswap_32 (x : Nat) : Nat :=
  x % 256 * 2 ^ 24 + x / 2 ^ 8 % 256 * 2 ^ 16 + x / 2 ^ 16 % 256 * 2 ^ 8 + x / 2 ^ 24 % 256

/-- The sixteen stores `*dest++ = ...` of `build_block` in the BIG_ENDIAN build. -/
def init_matrix_be (key nonce : List Nat) (counter : Nat) : List Nat :=
  [pack4_uint8 constant 0, pack4_uint8 constant 4,
   pack4_uint8 constant 8, pack4_uint8 constant 12,
   pack4_uint8 key 0, pack4_uint8 key 4, pack4_uint8 key 8, pack4_uint8 key 12,
   pack4_uint8 key 16, pack4_uint8 key 20, pack4_uint8 key 24, pack4_uint8 key 28,
   bswap_32 counter,
   pack4_uint8 nonce 0, pack4_uint8 nonce 4, pack4_uint8 nonce 8]

/-- The loop `matrix[index] += temp_m[index]; matrix[index] = bswap_32(matrix[index])`
of the BIG_ENDIAN build (main.c:141-154). -/
def feed_forward_be (matrix t : List Nat) : List Nat :=
  List.zipWith (fun x y => bswap_32 ((x + y) % 2 ^ 32)) matrix t

/-- `build_block` (main.c:79-168) in the BIG_ENDIAN build. -/
def build_block_be (key nonce : List Nat) (counter : Nat) (rounds : Int) :
    Option (List Nat) :=
  let matrix := init_matrix_be key nonce counter
  if matrix.length = 16 then
    match round_loop rounds matrix with
    | some t => some (feed_forward_be matrix t)
    | none => none
  else none

/-- Byte `i` of the matrix read through `(uint8 *)matrix` on a big-endian host: words
laid out most significant byte first. -/
def block_byte_be (matrix : List Nat) (i : Nat) : Nat :=
  (matrix.getD (i / 4) 0 >>> (8 * (3 - i % 4))) % 256

/-- The 64 keystream bytes of one block in the default build on a little-endian
host. -/
def keystream_block_le (key nonce : List Nat) (counter : Nat) (rounds : Int) :
    Option (List Nat) :=
  (build_block key nonce counter rounds).map (fun m => (List.range 64).map (block_byte m))

/-- The 64 keystream bytes of one block in the BIG_ENDIAN build on a big-endian
host. -/
def keystream_block_be (key nonce : List Nat) (counter : Nat) (rounds : Int) :
    Option (List Nat) :=
  (build_block_be key nonce counter rounds).map
    (fun m => (List.range 64).map (block_byte_be m))

/-! ## Reference notions the properties are stated with -/

/-- The plaintext recorded in the comment of `main` (main.c:210). -/
def demo_text : String :=
  "Ladies and Gentlemen of the class of \x2799: If I could offer you only one tip for the future, sunscreen would be it."

/-- The nonce of the block test vector of RFC 7539, section 2.3.2. -/
def rfc_block_nonce : List Nat :=
  [0x00, 0x00, 0x00, 0x09, 0x00, 0x00, 0x00, 0x4a, 0x00, 0x00, 0x00, 0x00]

/-- The sixteen words of the reference block of RFC 7539, section 2.3.2. -/
def rfc_block_words : List Nat :=
  [0xe4e7f110, 0x15593bd1, 0x1fdd0f50, 0xc47120a3,
   0xc7f4d1c7, 0x0368c033, 0x9aaa2204, 0x4e6cd4c3,
   0x466482d2, 0x09aa9f07, 0x05d7c214, 0xa2028bd9,
   0xd19c12b5, 0xb94e16de, 0xe883d0cb, 0x4e3c50a2]

/-- The reference block of RFC 7539, section 2.3.2, as the 64 serialised bytes. -/
def rfc_block_bytes : List Nat :=
  [0x10, 0xf1, 0xe7, 0xe4, 0xd1, 0x3b, 0x59, 0x15, 0x50, 0x0f, 0xdd, 0x1f, 0xa3, 0x20,
   0x71, 0xc4, 0xc7, 0xd1, 0xf4, 0xc7, 0x33, 0xc0, 0x68, 0x03, 0x04, 0x22, 0xaa, 0x9a,
   0xc3, 0xd4, 0x6c, 0x4e, 0xd2, 0x82, 0x64, 0x46, 0x07, 0x9f, 0xaa, 0x09, 0x14, 0xc2,
   0xd7, 0x05, 0xd9, 0x8b, 0x02, 0xa2, 0xb5, 0x12, 0x9c, 0xd1, 0xde, 0x16, 0x4e, 0xb9,
   0xcb, 0xd0, 0x83, 0xe8, 0xa2, 0x50, 0x3c, 0x4e]

/-- Little-endian serialisation of a sequence of 32-bit words: every word gives its
four bytes, least significant first. -/
def le_serialize : List Nat → List Nat
  | [] => []
  | w :: ws =>
    w % 256 :: w / 2 ^ 8 % 256 :: w / 2 ^ 16 % 256 :: w / 2 ^ 24 % 256 :: le_serialize ws

/-- Rotation of a 32-bit word to the left by `n` places, in arithmetic: the low
`32 - n` bits move up by `n` places and the top `n` bits re-enter at the bottom. -/
def spec_rotl (x n : Nat) : Nat := x % 2 ^ (32 - n) * 2 ^ n + x / 2 ^ (32 - n)

/-- The word `rotl_uint32(., 1)` applied `k` times gives, when no call fails. -/
def iter_rotl1 : Nat → Nat → Option Nat
  | 0, x => some x
  | k + 1, x => (rotl_uint32 x 1).bind (iter_rotl1 k)

/-- The four-step mixing sequence of the specification, on four 32-bit words, with
additions modulo 2^32 and the arithmetic rotation. -/
def spec_quarter_round (a b c d : Nat) : Nat × Nat × Nat × Nat :=
  let a := (a + b) % 2 ^ 32
  let d := spec_rotl (d ^^^ a) 16
  let c := (c + d) % 2 ^ 32
  let b := spec_rotl (b ^^^ c) 12
  let a := (a + b) % 2 ^ 32
  let d := spec_rotl (d ^^^ a) 8
  let c := (c + d) % 2 ^ 32
  let b := spec_rotl (b ^^^ c) 7
  (a, b, c, d)

/-- Rotation of a 32-bit word to the right by `n` places. -/
def rotr32 (x n : Nat) : Nat := (x >>> n) ||| ((x <<< (32 - n)) % 2 ^ 32)

/-- The equations of the quarter round run backward: rotate right by 7, 8, 12, 16,
xor, subtract modulo 2^32. -/
def quarter_round_inv (a b c d : Nat) : Nat × Nat × Nat × Nat :=
  let b1 := rotr32 b 7 ^^^ c
  let c1 := (c + 2 ^ 32 - d) % 2 ^ 32
  let d1 := rotr32 d 8 ^^^ a
  let a1 := (a + 2 ^ 32 - b1) % 2 ^ 32
  let b0 := rotr32 b1 12 ^^^ c1
  let c0 := (c1 + 2 ^ 32 - d1) % 2 ^ 32
  let d0 := rotr32 d1 16 ^^^ a1
  let a0 := (a1 + 2 ^ 32 - b0) % 2 ^ 32
  (a0, b0, c0, d0)

/-- The index quadruples of a column round, in the order of the specification. -/
def column_round : List (Nat × Nat × Nat × Nat) :=
  [(0, 4, 8, 12), (1, 5, 9, 13), (2, 6, 10, 14), (3, 7, 11, 15)]

/-- The index quadruples of a diagonal round, in the order of the specification. -/
def diagonal_round : List (Nat × Nat × Nat × Nat) :=
  [(0, 5, 10, 15), (1, 6, 11, 12), (2, 7, 8, 13), (3, 4, 9, 14)]

/-- One repetition of the specification: `quarter_round` on the four columns, then on
the four diagonals. -/
def spec_double_round (t : List Nat) : Option (List Nat) :=
  (column_round ++ diagonal_round).foldlM
    (fun t q => quarter_round_at t q.1 q.2.1 q.2.2.1 q.2.2.2) t

/-- The state after `n` repetitions of the column round and diagonal round. -/
def spec_rounds : Nat → List Nat → Option (List Nat)
  | 0, t => some t
  | n + 1, t => (spec_double_round t).bind (spec_rounds n)

/-- The 32-bit word with the bytes `b0 b1 b2 b3`, least significant first. -/
def le_word (b0 b1 b2 b3 : Nat) : Nat := b0 + 2 ^ 8 * b1 + 2 ^ 16 * b2 + 2 ^ 24 * b3

/-- Word `k` of a byte string read as little-endian 32-bit words. -/
def le_word_at (src : List Nat) (k : Nat) : Nat :=
  le_word (src.getD (4 * k) 0) (src.getD (4 * k + 1) 0) (src.getD (4 * k + 2) 0)
    (src.getD (4 * k + 3) 0)

/-- The state layout of the specification, row-major: four constant words, eight key
words, the block counter, three nonce words. -/
def spec_layout (key nonce : List Nat) (counter : Nat) : List Nat :=
  [0x61707865, 0x3320646e, 0x79622d32, 0x6b206574] ++
    (List.range 8).map (le_word_at key) ++ [counter] ++ (List.range 3).map (le_word_at nonce)

/-- The body of `quarter_round` (main.c:55-58) with the rotation it calls as a
parameter; `quarter_round` is this with `rotl_uint32`. -/
def quarter_round_with (rot : Nat → Nat → Option Nat) (a b c d : Nat) :
    Option (Nat × Nat × Nat × Nat) := do
  let a := (a + b) % 2 ^ 32
  let d := d ^^^ a
  let d ← rot d 16
  let c := (c + d) % 2 ^ 32
  let b := b ^^^ c
  let b ← rot b 12
  let a := (a + b) % 2 ^ 32
  let d := d ^^^ a
  let d ← rot d 8
  let c := (c + d) % 2 ^ 32
  let b := b ^^^ c
  let b ← rot b 7
  pure (a, b, c, d)

/-- The rotation `rotl_uint32` made to fail on every amount outside {16, 12, 8, 7}. -/
def rotl_uint32_checked (x n : Nat) : Option Nat :=
  if n = 16 ∨ n = 12 ∨ n = 8 ∨ n = 7 then rotl_uint32 x n else none

/-- The two keystream blocks of the demonstration run (counters 1 and 2), as words;
their serialisation is the key stream listed in RFC 7539, section 2.4.2. -/
def demo_blocks : List Nat :=
  [0xf3514f22, 0xe1d91b40, 0x6f27de2f, 0xed1d63b8, 0x821f138c, 0xe2062c3d, 0xecca4f7e,
   0x78cff39e, 0xa30a3b8a, 0x920a6072, 0xcd7479b5, 0x34932bed, 0x40ba4c79, 0xcd343ec6,
   0x4c2c21ea, 0xb7417df0,
   0x9f74a669, 0x410f633f, 0x28feca22, 0x7ec44dec, 0x6d34d426, 0x738cb970, 0x3ac5e9f3,
   0x45590cc4, 0xda6e8b39, 0x892c831a, 0xcdea67c1, 0x2b7e1d90, 0x037463f3, 0xa11a2073,
   0xe8bcfb88, 0xedc49139]

/-- The block `build_block` leaves for the demonstration key, the fixed nonce,
counter 1 and the odd round count 7. -/
def demo_block_rounds_7 : List Nat :=
  [0xd3fe08bc, 0x1c572cf8, 0x86707a5e, 0xe2ae8865,
   0x6818ee81, 0xc2a96908, 0x244e9faf, 0x37564a4a,
   0xe8dfb261, 0xfdda47a7, 0x96842f53, 0x58113355,
   0xc13ebd9a, 0x057645eb, 0x29a77744, 0xb7cb825b]

/-- The block `build_block` leaves for the demonstration key, the fixed nonce,
counter 1 and the round count 0: every word of the initialised matrix doubled. -/
def demo_block_rounds_0 : List Nat :=
  [0xc2e0f0ca, 0x6640c8dc, 0xf2c45a64, 0xd640cae8,
   0x06040200, 0x0e0c0a08, 0x16141210, 0x1e1c1a18,
   0x26242220, 0x2e2c2a28, 0x36343230, 0x3e3c3a38,
   0x00000002, 0x00000000, 0x94000000, 0x00000000]

/-! ## Values on the non-failing path

The functions above return `some` on every input the program gives them.  The
definitions below name the values they return; the lemmas of the next section
connect the two. -/

/-- The word `rotl_uint32` returns when its assertion holds. -/
def rotl_val (x n : Nat) : Nat := ((x <<< n) % 2 ^ 32) ||| (x >>> (32 - n))

/-- The four words `quarter_round` writes back. -/
def qr_val (a b c d : Nat) : Nat × Nat × Nat × Nat :=
  let a1 := (a + b) % 2 ^ 32
  let d1 := rotl_val (d ^^^ a1) 16
  let c1 := (c + d1) % 2 ^ 32
  let b1 := rotl_val (b ^^^ c1) 12
  let a2 := (a1 + b1) % 2 ^ 32
  let d2 := rotl_val (d1 ^^^ a2) 8
  let c2 := (c1 + d2) % 2 ^ 32
  let b2 := rotl_val (b1 ^^^ c2) 7
  (a2, b2, c2, d2)

/-- The array after a call `quarter_round(temp_m + i, ...)`. -/
def qr_at_val (m : List Nat) (i j k l : Nat) : List Nat :=
  let q := qr_val (m.getD i 0) (m.getD j 0) (m.getD k 0) (m.getD l 0)
  (((m.set i q.1).set j q.2.1).set k q.2.2.1).set l q.2.2.2

/-- The working copy after one pass through the body of the `while` loop. -/
def double_round_val (t : List Nat) : List Nat :=
  let t := qr_at_val t 0 4 8 12
  let t := qr_at_val t 1 5 9 13
  let t := qr_at_val t 2 6 10 14
  let t := qr_at_val t 3 7 11 15
  let t := qr_at_val t 0 5 10 15
  let t := qr_at_val t 1 6 11 12
  let t := qr_at_val t 2 7 8 13
  qr_at_val t 3 4 9 14

/-- Number of passes the loop `while(rounds > 0) { rounds -= 2; ... }` makes. -/
def loop_passes (rounds : Int) : Nat := (rounds.toNat + 1) / 2

/-- The matrix `build_block` leaves. -/
def block_val (key nonce : List Nat) (counter : Nat) (rounds : Int) : List Nat :=
  feed_forward (init_matrix key nonce counter)
    (double_round_val^[loop_passes rounds] (init_matrix key nonce counter))

/-- Keystream byte used at buffer position `i` of a run started with counter `c`. -/
def keystream_byte (key nonce : List Nat) (c : Nat) (rounds : Int) (i : Nat) : Nat :=
  block_byte (block_val key nonce ((c + i / 64) % 2 ^ 32) rounds) (i % 64)

/-- The buffer bytes from position `index` on, each xor-ed with the byte `ks` gives
for its position and stored as a `uint8`. -/
def xor_stream (ks : Nat → Nat) : Nat → List Nat → List Nat
  | _, [] => []
  | index, b :: rest => ((b ^^^ ks index) % 256) :: xor_stream ks (index + 1) rest

/-! ## The functions never take the fatal path -/

theorem rotl_uint32_eq (x n : Nat) (h : n < 32) : rotl_uint32 x n = some (rotl_val x n) := by
  simp [rotl_uint32, rotl_val, h]

theorem quarter_round_eq (a b c d : Nat) : quarter_round a b c d = some (qr_val a b c d) := by
  simp [quarter_round, qr_val, rotl_uint32_eq]

theorem quarter_round_at_eq (m : List Nat) (i j k l : Nat) :
    quarter_round_at m i j k l = some (qr_at_val m i j k l) := by
  simp [quarter_round_at, qr_at_val, quarter_round_eq]

theorem double_round_eq (t : List Nat) : double_round t = some (double_round_val t) := by
  simp [double_round, double_round_val, quarter_round_at_eq]

theorem round_loop_eq_aux (k : Nat) : ∀ (rounds : Int) (t : List Nat),
    loop_passes rounds = k → round_loop rounds t = some (double_round_val^[k] t) := by
  induction k with
  | zero =>
    intro rounds t hk
    have h0 : ¬ 0 < rounds := by unfold loop_passes at hk; omega
    rw [round_loop, if_neg h0]; rfl
  | succ k ih =>
    intro rounds t hk
    have h0 : 0 < rounds := by unfold loop_passes at hk; omega
    have h1 : loop_passes (rounds - 2) = k := by unfold loop_passes at hk ⊢; omega
    rw [round_loop, if_pos h0, double_round_eq]
    simp only [Function.iterate_succ_apply]
    exact ih (rounds - 2) (double_round_val t) h1

theorem round_loop_eq (rounds : Int) (t : List Nat) :
    round_loop rounds t = some (double_round_val^[loop_passes rounds] t) :=
  round_loop_eq_aux _ rounds t rfl

theorem build_block_eq (key nonce : List Nat) (counter : Nat) (rounds : Int) :
    build_block key nonce counter rounds = some (block_val key nonce counter rounds) := by
  simp [build_block, block_val, round_loop_eq, init_matrix]

theorem encrypt_loop_eq (key nonce : List Nat) (c : Nat) (rounds : Int)
    (rest : List Nat) : ∀ (index ctr : Nat) (m : List Nat),
    (index % 64 = 0 → ctr = (c + index / 64) % 2 ^ 32) →
    (index % 64 ≠ 0 → ctr = (c + index / 64 + 1) % 2 ^ 32 ∧
      m = block_val key nonce ((c + index / 64) % 2 ^ 32) rounds) →
    encrypt_loop key nonce rounds index ctr m rest =
      some (xor_stream (keystream_byte key nonce c rounds) index rest) := by
  induction rest with
  | nil => intro index ctr m _ _; rfl
  | cons b rest ih =>
    intro index ctr m h0 h1
    by_cases hm : index % 64 = 0
    · have hctr := h0 hm
      simp only [encrypt_loop, hm, if_true, build_block_eq]
      rw [ih (index + 1) ((ctr + 1) % 2 ^ 32) (block_val key nonce ctr rounds)]
      · simp [xor_stream, keystream_byte, hm, hctr]
      · intro h; omega
      · intro _
        have e : (index + 1) / 64 = index / 64 := by omega
        rw [e, hctr]
        exact ⟨by omega, rfl⟩
    · obtain ⟨hctr, hmat⟩ := h1 hm
      simp only [encrypt_loop, hm, if_false]
      rw [ih (index + 1) ctr m]
      · simp [xor_stream, keystream_byte, hmat]
      · intro h
        have e : (index + 1) / 64 = index / 64 + 1 := by omega
        rw [e, hctr]; congr 1
      · intro h
        have e : (index + 1) / 64 = index / 64 := by omega
        rw [e]; exact ⟨hctr, hmat⟩

theorem chacha_encrypt_internal_eq (key nonce : List Nat) (c : Nat) (rounds : Int)
    (hc : c < 2 ^ 32) (buffer : List Nat) :
    chacha_encrypt_internal key nonce c rounds buffer =
      some (xor_stream (keystream_byte key nonce c rounds) 0 buffer) := by
  unfold chacha_encrypt_internal
  apply encrypt_loop_eq key nonce c rounds
  · intro _; simp only [Nat.zero_div, Nat.add_zero]; exact (Nat.mod_eq_of_lt hc).symm
  · intro h; simp at h


/-! ## The keystream xor -/

theorem xor_stream_length (ks : Nat → Nat) (buffer : List Nat) :
    ∀ index, (xor_stream ks index buffer).length = buffer.length := by
  induction buffer with
  | nil => intro _; rfl
  | cons b rest ih => intro index; simp [xor_stream, ih]

theorem xor_stream_getD (ks : Nat → Nat) (buffer : List Nat) :
    ∀ index i, i < buffer.length →
      (xor_stream ks index buffer).getD i 0 = (buffer.getD i 0 ^^^ ks (index + i)) % 256 := by
  induction buffer with
  | nil => intro _ i h; simp at h
  | cons b rest ih =>
    intro index i h
    cases i with
    | zero => simp [xor_stream]
    | succ i =>
      have h1 : i < rest.length := by simpa using h
      have e : index + (i + 1) = index + 1 + i := by omega
      simp only [xor_stream, List.getD_cons_succ, e]
      exact ih (index + 1) i h1

theorem xor_byte_cancel (b k : Nat) (hb : b < 256) (hk : k < 256) :
    ((b ^^^ k) % 256 ^^^ k) % 256 = b := by
  have h : b ^^^ k < 2 ^ 8 := Nat.xor_lt_two_pow (by simpa using hb) (by simpa using hk)
  have h1 : (b ^^^ k) % 256 = b ^^^ k := Nat.mod_eq_of_lt (by simpa using h)
  rw [h1, Nat.xor_assoc, Nat.xor_self, Nat.xor_zero, Nat.mod_eq_of_lt hb]

theorem xor_stream_involution (ks : Nat → Nat) (hks : ∀ i, ks i < 256) (buffer : List Nat)
    (hb : is_bytes buffer) :
    ∀ index, xor_stream ks index (xor_stream ks index buffer) = buffer := by
  induction buffer with
  | nil => intro _; rfl
  | cons b rest ih =>
    intro index
    have hb0 : b < 256 := hb b (by simp)
    have hrest : is_bytes rest := fun x hx => hb x (by simp [hx])
    simp only [xor_stream, xor_byte_cancel b (ks index) hb0 (hks index), ih hrest]

theorem keystream_byte_lt (key nonce : List Nat) (c : Nat) (rounds : Int) (i : Nat) :
    keystream_byte key nonce c rounds i < 256 := by
  unfold keystream_byte block_byte
  exact Nat.mod_lt _ (by decide)

theorem le_serialize_getD (ws : List Nat) :
    ∀ i, i < 4 * ws.length → (le_serialize ws).getD i 0 = block_byte ws i := by
  induction ws with
  | nil => intro i h; simp at h
  | cons w ws ih =>
    intro i h
    by_cases h4 : i < 4
    · interval_cases i <;> simp [le_serialize, block_byte, Nat.shiftRight_eq_div_pow]
    · obtain ⟨j, rfl⟩ : ∃ j, i = j + 4 := ⟨i - 4, by omega⟩
      have hj : j < 4 * ws.length := by simp only [List.length_cons] at h; omega
      have e1 : (j + 4) / 4 = j / 4 + 1 := by omega
      have e2 : (j + 4) % 4 = j % 4 := by omega
      have := ih j hj
      simp only [le_serialize, List.getD_cons_succ, this, block_byte, e1, e2]

theorem qr_at_val_length (m : List Nat) (i j k l : Nat) :
    (qr_at_val m i j k l).length = m.length := by
  simp [qr_at_val]

theorem double_round_val_length (t : List Nat) : (double_round_val t).length = t.length := by
  simp [double_round_val, qr_at_val_length]

theorem iterate_double_round_val_length (n : Nat) :
    ∀ t : List Nat, (double_round_val^[n] t).length = t.length := by
  induction n with
  | zero => intro t; rfl
  | succ n ih =>
    intro t
    rw [Function.iterate_succ_apply, ih, double_round_val_length]

theorem block_val_length (key nonce : List Nat) (counter : Nat) (rounds : Int) :
    (block_val key nonce counter rounds).length = 16 := by
  simp [block_val, feed_forward, iterate_double_round_val_length, init_matrix]

/-! ## Rotation -/

theorem testBit_eq_false_of_word (x j : Nat) (hx : x < 2 ^ 32) (hj : 32 ≤ j) :
    x.testBit j = false :=
  Nat.testBit_lt_two_pow (Nat.lt_of_lt_of_le hx (Nat.pow_le_pow_right (by decide) hj))

theorem rotl_val_testBit (x n : Nat) (hx : x < 2 ^ 32) (h0 : 0 < n) (hn : n < 32) (i : Nat) :
    (rotl_val x n).testBit i = (decide (i < 32) && x.testBit ((i + 32 - n) % 32)) := by
  unfold rotl_val
  rw [Nat.testBit_or, Nat.testBit_mod_two_pow, Nat.testBit_shiftLeft, Nat.testBit_shiftRight]
  by_cases hi : i < 32
  · by_cases hin : n ≤ i
    · have e : (i + 32 - n) % 32 = i - n := by omega
      have hf := testBit_eq_false_of_word x (32 - n + i) hx (by omega)
      simp [hi, hin, e, hf]
    · have e : (i + 32 - n) % 32 = 32 - n + i := by omega
      simp [hi, hin, e]
  · have hf := testBit_eq_false_of_word x (32 - n + i) hx (by omega)
    simp [hi, hf]

theorem rotl_val_lt (x n : Nat) (hx : x < 2 ^ 32) (h0 : 0 < n) (hn : n < 32) :
    rotl_val x n < 2 ^ 32 := by
  apply Nat.lt_pow_two_of_testBit
  intro i hi
  rw [rotl_val_testBit x n hx h0 hn]
  have : ¬ i < 32 := by omega
  simp [this]

theorem word_ext (x y : Nat) (hx : x < 2 ^ 32) (hy : y < 2 ^ 32)
    (h : ∀ i, i < 32 → x.testBit i = y.testBit i) : x = y := by
  apply Nat.eq_of_testBit_eq
  intro i
  by_cases hi : i < 32
  · exact h i hi
  · rw [testBit_eq_false_of_word x i hx (by omega), testBit_eq_false_of_word y i hy (by omega)]

theorem rotl_val_zero (x : Nat) (hx : x < 2 ^ 32) : rotl_val x 0 = x := by
  have h : x >>> 32 = 0 := by
    rw [Nat.shiftRight_eq_div_pow]; exact Nat.div_eq_of_lt hx
  simp only [rotl_val, h, Nat.shiftLeft_zero, Nat.mod_eq_of_lt hx, Nat.or_zero]

theorem rotl_val_eq_spec (x n : Nat) (hx : x < 2 ^ 32) (h0 : 0 < n) (hn : n < 32) :
    rotl_val x n = spec_rotl x n := by
  unfold rotl_val spec_rotl
  have hp : (2 : Nat) ^ 32 = 2 ^ (32 - n) * 2 ^ n := by
    rw [← Nat.pow_add]; congr 1; omega
  have hq : x / 2 ^ (32 - n) < 2 ^ n := by
    apply Nat.div_lt_of_lt_mul
    rw [← hp]; exact hx
  rw [Nat.shiftLeft_eq, Nat.shiftRight_eq_div_pow, hp, Nat.mul_mod_mul_right,
    Nat.mul_comm (x % 2 ^ (32 - n)) (2 ^ n), Nat.mul_add_lt_is_or hq]

theorem rotl_val_succ (x n : Nat) (hx : x < 2 ^ 32) (h0 : 0 < n) (hn : n + 1 < 32) :
    rotl_val (rotl_val x 1) n = rotl_val x (n + 1) := by
  have h1 := rotl_val_lt x 1 hx (by decide) (by decide)
  apply word_ext _ _ (rotl_val_lt _ n h1 h0 (by omega)) (rotl_val_lt x (n + 1) hx (by omega) hn)
  intro i hi
  rw [rotl_val_testBit _ n h1 h0 (by omega), rotl_val_testBit x 1 hx (by decide) (by decide),
    rotl_val_testBit x (n + 1) hx (by omega) hn]
  have hlt : (i + 32 - n) % 32 < 32 := Nat.mod_lt _ (by decide)
  have e : ((i + 32 - n) % 32 + 32 - 1) % 32 = (i + 32 - (n + 1)) % 32 := by omega
  rw [e]
  simp [hi, hlt]

theorem iter_rotl1_eq (n : Nat) : ∀ x, x < 2 ^ 32 → 0 < n → n < 32 →
    iter_rotl1 n x = some (rotl_val x n) := by
  induction n with
  | zero => intro x _ h; omega
  | succ n ih =>
    intro x hx _ hn
    have h1 := rotl_val_lt x 1 hx (by decide) (by decide)
    rw [iter_rotl1, rotl_uint32_eq x 1 (by decide), Option.some_bind]
    by_cases hz : n = 0
    · subst hz; rfl
    · rw [ih _ h1 (by omega) (by omega), rotl_val_succ x n hx (by omega) hn]

theorem rotr32_eq_rotl_val (x n : Nat) (hn : n ≤ 32) : rotr32 x n = rotl_val x (32 - n) := by
  have e : 32 - (32 - n) = n := by omega
  rw [rotr32, rotl_val, e, Nat.lor_comm]

theorem rotl_val_cancel (x n m : Nat) (hx : x < 2 ^ 32) (h0 : 0 < n) (h1 : 0 < m)
    (hnm : n + m = 32) : rotl_val (rotl_val x n) m = x := by
  have hr := rotl_val_lt x n hx h0 (by omega)
  apply word_ext _ _ (rotl_val_lt _ m hr h1 (by omega)) hx
  intro i hi
  rw [rotl_val_testBit _ m hr h1 (by omega), rotl_val_testBit x n hx h0 (by omega)]
  have hlt : (i + 32 - m) % 32 < 32 := Nat.mod_lt _ (by decide)
  have e : ((i + 32 - m) % 32 + 32 - n) % 32 = i := by omega
  rw [e]
  simp [hi, hlt]

theorem rotr32_rotl_val (x n : Nat) (hx : x < 2 ^ 32) (h0 : 0 < n) (hn : n < 32) :
    rotr32 (rotl_val x n) n = x := by
  rw [rotr32_eq_rotl_val _ n (by omega)]
  exact rotl_val_cancel x n (32 - n) hx h0 (by omega) (by omega)

theorem rotl_val_rotr32 (x n : Nat) (hx : x < 2 ^ 32) (h0 : 0 < n) (hn : n < 32) :
    rotl_val (rotr32 x n) n = x := by
  rw [rotr32_eq_rotl_val _ n (by omega)]
  exact rotl_val_cancel x (32 - n) n hx (by omega) h0 (by omega)

theorem rotr32_lt (x n : Nat) (hx : x < 2 ^ 32) (h0 : 0 < n) (hn : n < 32) :
    rotr32 x n < 2 ^ 32 := by
  rw [rotr32_eq_rotl_val _ n (by omega)]
  exact rotl_val_lt x (32 - n) hx (by omega) (by omega)

theorem xor_cancel_right (x y : Nat) : (x ^^^ y) ^^^ y = x := by
  rw [Nat.xor_assoc, Nat.xor_self, Nat.xor_zero]

/-- One step `x += y; z ^= x; z = rotl(z, n)` of the quarter round, and its undoing. -/
theorem mix_step_undo (x y z n : Nat) (hx : x < 2 ^ 32) (hy : y < 2 ^ 32) (hz : z < 2 ^ 32)
    (h0 : 0 < n) (hn : n < 32) :
    (x + y) % 2 ^ 32 < 2 ^ 32 ∧ rotl_val (z ^^^ (x + y) % 2 ^ 32) n < 2 ^ 32 ∧
      rotr32 (rotl_val (z ^^^ (x + y) % 2 ^ 32) n) n ^^^ (x + y) % 2 ^ 32 = z ∧
      ((x + y) % 2 ^ 32 + 2 ^ 32 - y) % 2 ^ 32 = x := by
  have hs : (x + y) % 2 ^ 32 < 2 ^ 32 := Nat.mod_lt _ (by decide)
  have hxor : z ^^^ (x + y) % 2 ^ 32 < 2 ^ 32 := Nat.xor_lt_two_pow hz hs
  refine ⟨hs, rotl_val_lt _ n hxor h0 hn, ?_, ?_⟩
  · rw [rotr32_rotl_val _ n hxor h0 hn, xor_cancel_right]
  · omega

/-- The undoing of one step, followed by the step. -/
theorem mix_step_redo (x y z n : Nat) (hx : x < 2 ^ 32) (hy : y < 2 ^ 32) (hz : z < 2 ^ 32)
    (h0 : 0 < n) (hn : n < 32) :
    (x + 2 ^ 32 - y) % 2 ^ 32 < 2 ^ 32 ∧ rotr32 z n ^^^ x < 2 ^ 32 ∧
      ((x + 2 ^ 32 - y) % 2 ^ 32 + y) % 2 ^ 32 = x ∧
      rotl_val (rotr32 z n ^^^ x ^^^ x) n = z := by
  refine ⟨Nat.mod_lt _ (by decide), Nat.xor_lt_two_pow (rotr32_lt z n hz h0 hn) hx, ?_, ?_⟩
  · omega
  · rw [xor_cancel_right, rotl_val_rotr32 z n hz h0 hn]

theorem qr_val_inv (a b c d : Nat) (ha : a < 2 ^ 32) (hb : b < 2 ^ 32) (hc : c < 2 ^ 32)
    (hd : d < 2 ^ 32) :
    is_words [(qr_val a b c d).1, (qr_val a b c d).2.1, (qr_val a b c d).2.2.1,
        (qr_val a b c d).2.2.2] ∧
      quarter_round_inv (qr_val a b c d).1 (qr_val a b c d).2.1 (qr_val a b c d).2.2.1
        (qr_val a b c d).2.2.2 = (a, b, c, d) := by
  obtain ⟨ha1, hd1, e1d, e1a⟩ := mix_step_undo a b d 16 ha hb hd (by decide) (by decide)
  obtain ⟨hc1, hb1, e2b, e2c⟩ := mix_step_undo c _ b 12 hc hd1 hb (by decide) (by decide)
  obtain ⟨ha2, hd2, e3d, e3a⟩ := mix_step_undo _ _ _ 8 ha1 hb1 hd1 (by decide) (by decide)
  obtain ⟨hc2, hb2, e4b, e4c⟩ := mix_step_undo _ _ _ 7 hc1 hd2 hb1 (by decide) (by decide)
  constructor
  · intro w hw
    simp only [qr_val, List.mem_cons, List.mem_singleton, List.not_mem_nil, or_false] at hw
    rcases hw with h | h | h | h
    · rw [h]; exact ha2
    · rw [h]; exact hb2
    · rw [h]; exact hc2
    · rw [h]; exact hd2
  · simp only [qr_val, quarter_round_inv]
    rw [e4b, e4c, e3d, e3a, e2b, e2c, e1d, e1a]

theorem qr_val_of_inv (a b c d : Nat) (ha : a < 2 ^ 32) (hb : b < 2 ^ 32) (hc : c < 2 ^ 32)
    (hd : d < 2 ^ 32) :
    is_words [(quarter_round_inv a b c d).1, (quarter_round_inv a b c d).2.1,
        (quarter_round_inv a b c d).2.2.1, (quarter_round_inv a b c d).2.2.2] ∧
      qr_val (quarter_round_inv a b c d).1 (quarter_round_inv a b c d).2.1
        (quarter_round_inv a b c d).2.2.1 (quarter_round_inv a b c d).2.2.2 = (a, b, c, d) := by
  obtain ⟨hc1, hb1, e4c, e4b⟩ := mix_step_redo c d b 7 hc hd hb (by decide) (by decide)
  obtain ⟨ha1, hd1, e3a, e3d⟩ := mix_step_redo a _ d 8 ha hb1 hd (by decide) (by decide)
  obtain ⟨hc0, hb0, e2c, e2b⟩ := mix_step_redo _ _ _ 12 hc1 hd1 hb1 (by decide) (by decide)
  obtain ⟨ha0, hd0, e1a, e1d⟩ := mix_step_redo _ _ _ 16 ha1 hb0 hd1 (by decide) (by decide)
  constructor
  · intro w hw
    simp only [quarter_round_inv, List.mem_cons, List.mem_singleton, List.not_mem_nil,
      or_false] at hw
    rcases hw with h | h | h | h
    · rw [h]; exact ha0
    · rw [h]; exact hb0
    · rw [h]; exact hc0
    · rw [h]; exact hd0
  · simp only [qr_val, quarter_round_inv]
    rw [e1a, e1d, e2c, e2b, e3a, e3d, e4c, e4b]

/-! ## The block function -/

theorem getD_lt_of_is_bytes (xs : List Nat) (h : is_bytes xs) (i : Nat) : xs.getD i 0 < 256 := by
  by_cases hi : i < xs.length
  · rw [List.getD_eq_getElem _ _ hi]; exact h _ (List.getElem_mem _)
  · rw [List.getD_eq_default _ _ (by omega)]; decide

theorem pack_bytes_eq (b0 b1 b2 b3 : Nat) (h0 : b0 < 256) (h1 : b1 < 256) (h2 : b2 < 256)
    (h3 : b3 < 256) :
    ((b3 <<< 24) ||| (b2 <<< 16) ||| (b1 <<< 8) ||| (b0 <<< 0)) % 2 ^ 32 = le_word b0 b1 b2 b3 := by
  have s1 : b0 < 2 ^ 8 := h0
  have s2 : 2 ^ 8 * b1 + b0 < 2 ^ 16 := by omega
  have s3 : 2 ^ 16 * b2 + (2 ^ 8 * b1 + b0) < 2 ^ 24 := by omega
  rw [Nat.or_assoc, Nat.or_assoc, Nat.shiftLeft_zero, Nat.shiftLeft_eq, Nat.shiftLeft_eq,
    Nat.shiftLeft_eq, Nat.mul_comm b1, Nat.mul_comm b2, Nat.mul_comm b3,
    ← Nat.mul_add_lt_is_or s1, ← Nat.mul_add_lt_is_or s2, ← Nat.mul_add_lt_is_or s3]
  unfold le_word
  omega

theorem pack4_uint8_eq (src : List Nat) (h : is_bytes src) (k : Nat) :
    pack4_uint8 src (4 * k) = le_word_at src k :=
  pack_bytes_eq _ _ _ _ (getD_lt_of_is_bytes src h _) (getD_lt_of_is_bytes src h _)
    (getD_lt_of_is_bytes src h _) (getD_lt_of_is_bytes src h _)

theorem init_matrix_eq (key nonce : List Nat) (counter : Nat) (hk : is_bytes key)
    (hn : is_bytes nonce) : init_matrix key nonce counter = spec_layout key nonce counter := by
  have k0 := pack4_uint8_eq key hk 0
  have k1 := pack4_uint8_eq key hk 1
  have k2 := pack4_uint8_eq key hk 2
  have k3 := pack4_uint8_eq key hk 3
  have k4 := pack4_uint8_eq key hk 4
  have k5 := pack4_uint8_eq key hk 5
  have k6 := pack4_uint8_eq key hk 6
  have k7 := pack4_uint8_eq key hk 7
  have n0 := pack4_uint8_eq nonce hn 0
  have n1 := pack4_uint8_eq nonce hn 1
  have n2 := pack4_uint8_eq nonce hn 2
  have c0 : pack4_uint8 constant 0 = 0x61707865 := by decide
  have c1 : pack4_uint8 constant 4 = 0x3320646e := by decide
  have c2 : pack4_uint8 constant 8 = 0x79622d32 := by decide
  have c3 : pack4_uint8 constant 12 = 0x6b206574 := by decide
  simp only [Nat.mul_zero, Nat.mul_one, Nat.reduceMul] at k0 k1 k2 k3 k4 k5 k6 k7 n0 n1 n2
  rw [init_matrix, c0, c1, c2, c3, k0, k1, k2, k3, k4, k5, k6, k7, n0, n1, n2]
  rfl

theorem spec_double_round_eq (t : List Nat) :
    spec_double_round t = some (double_round_val t) := by
  simp [spec_double_round, column_round, diagonal_round, quarter_round_at_eq, double_round_val]

theorem spec_rounds_eq (n : Nat) : ∀ t, spec_rounds n t = some (double_round_val^[n] t) := by
  induction n with
  | zero => intro t; rfl
  | succ n ih =>
    intro t
    rw [spec_rounds, spec_double_round_eq, Option.some_bind, ih, Function.iterate_succ_apply]

theorem feed_forward_getD (m t : List Nat) (j : Nat) (hm : j < m.length) (ht : j < t.length) :
    (feed_forward m t).getD j 0 = (m.getD j 0 + t.getD j 0) % 2 ^ 32 := by
  have hz : j < (feed_forward m t).length := by
    simp only [feed_forward, List.length_zipWith]; omega
  rw [List.getD_eq_getElem _ _ hz, List.getD_eq_getElem _ _ hm, List.getD_eq_getElem _ _ ht]
  simp [feed_forward, List.getElem_zipWith]

/-! ## The recorded loop -/

theorem encrypt_loop_run_eq (key nonce : List Nat) (rounds : Int) (rest : List Nat) :
    ∀ (index ctr : Nat) (m : List Nat),
      (encrypt_loop_run key nonce rounds index ctr m rest).trapped = false ∧
      encrypt_loop key nonce rounds index ctr m rest =
        some (encrypt_loop_run key nonce rounds index ctr m rest).buffer := by
  induction rest with
  | nil => intro index ctr m; exact ⟨rfl, rfl⟩
  | cons b rest ih =>
    intro index ctr m
    by_cases hm : index % 64 = 0
    · obtain ⟨h1, h2⟩ := ih (index + 1) ((ctr + 1) % 2 ^ 32) (block_val key nonce ctr rounds)
      simp only [encrypt_loop_run, encrypt_loop, hm, if_true, build_block_eq, h1, h2]
      exact ⟨trivial, trivial⟩
    · obtain ⟨h1, h2⟩ := ih (index + 1) ctr m
      simp only [encrypt_loop_run, encrypt_loop, hm, if_false, h1, h2]
      exact ⟨trivial, trivial⟩

/-- Number of positions `i` with `index ≤ i < index + len` that are multiples of 64. -/
theorem boundary_count_step (index len : Nat) :
    (index % 64 = 0 →
      (index + (len + 1) + 63) / 64 - (index + 63) / 64 =
        ((index + 1 + len + 63) / 64 - (index + 1 + 63) / 64) + 1) ∧
    (index % 64 ≠ 0 →
      (index + (len + 1) + 63) / 64 - (index + 63) / 64 =
        (index + 1 + len + 63) / 64 - (index + 1 + 63) / 64) := by
  constructor <;> intro h <;> omega

theorem counters_shift (ctr n : Nat) :
    (List.range (n + 1)).map (fun j => (ctr + j) % 2 ^ 32) =
      ctr % 2 ^ 32 :: (List.range n).map (fun j => ((ctr + 1) % 2 ^ 32 + j) % 2 ^ 32) := by
  rw [List.range_succ_eq_map, List.map_cons, List.map_map]
  congr 1
  apply List.map_congr_left
  intro j _
  simp only [Function.comp, Nat.succ_eq_add_one]
  omega

theorem encrypt_loop_run_calls (key nonce : List Nat) (rounds : Int) (rest : List Nat) :
    ∀ (index ctr : Nat) (m : List Nat), ctr < 2 ^ 32 →
      (encrypt_loop_run key nonce rounds index ctr m rest).calls =
        (List.range ((index + rest.length + 63) / 64 - (index + 63) / 64)).map
          (fun j => (ctr + j) % 2 ^ 32) ∧
      (encrypt_loop_run key nonce rounds index ctr m rest).block_counter =
        (ctr + ((index + rest.length + 63) / 64 - (index + 63) / 64)) % 2 ^ 32 := by
  induction rest with
  | nil =>
    intro index ctr m hc
    have e : (index + 0 + 63) / 64 - (index + 63) / 64 = 0 := by omega
    simp only [encrypt_loop_run, List.length_nil, e, List.range_zero, List.map_nil,
      Nat.add_zero, Nat.mod_eq_of_lt hc, and_self]
  | cons b rest ih =>
    intro index ctr m hc
    obtain ⟨s0, s1⟩ := boundary_count_step index rest.length
    by_cases hm : index % 64 = 0
    · obtain ⟨h1, h2⟩ := ih (index + 1) ((ctr + 1) % 2 ^ 32) (block_val key nonce ctr rounds)
        (Nat.mod_lt _ (by decide))
      simp only [encrypt_loop_run, hm, if_true, build_block_eq, h1, h2, List.length_cons,
        s0 hm, counters_shift, Nat.mod_eq_of_lt hc]
      refine ⟨trivial, ?_⟩
      omega
    · obtain ⟨h1, h2⟩ := ih (index + 1) ctr m hc
      simp only [encrypt_loop_run, hm, if_false, h1, h2, List.length_cons, s1 hm]
      exact ⟨trivial, trivial⟩

theorem xor_stream_take (ks : Nat → Nat) (buffer : List Nat) :
    ∀ index m, xor_stream ks index (buffer.take m) = (xor_stream ks index buffer).take m := by
  induction buffer with
  | nil => intro index m; simp [xor_stream]
  | cons b rest ih =>
    intro index m
    cases m with
    | zero => simp [xor_stream]
    | succ m => simp [xor_stream, ih]

theorem loop_passes_odd (k : Int) (hk : 0 < k) : loop_passes (2 * k - 1) = loop_passes (2 * k) := by
  unfold loop_passes; omega

theorem loop_passes_nonpos (R : Int) (h : R ≤ 0) : loop_passes R = 0 := by
  unfold loop_passes; omega

theorem xor_stream_append (ks : Nat → Nat) (a b : List Nat) :
    ∀ index, xor_stream ks index (a ++ b) =
      xor_stream ks index a ++ xor_stream ks (index + a.length) b := by
  induction a with
  | nil => intro index; simp [xor_stream]
  | cons x a ih =>
    intro index
    have e : index + (a.length + 1) = index + 1 + a.length := by omega
    simp [xor_stream, ih, e]

theorem xor_stream_shift (ks1 ks2 : Nat → Nat) (buffer : List Nat) :
    ∀ i1 i2, (∀ j, j < buffer.length → ks1 (i1 + j) = ks2 (i2 + j)) →
      xor_stream ks1 i1 buffer = xor_stream ks2 i2 buffer := by
  induction buffer with
  | nil => intro _ _ _; rfl
  | cons b rest ih =>
    intro i1 i2 h
    have h0 := h 0 (by simp)
    have hr : ∀ j, j < rest.length → ks1 (i1 + 1 + j) = ks2 (i2 + 1 + j) := by
      intro j hj
      have := h (j + 1) (by simpa using hj)
      have e1 : i1 + (j + 1) = i1 + 1 + j := by omega
      have e2 : i2 + (j + 1) = i2 + 1 + j := by omega
      rwa [e1, e2] at this
    simp only [Nat.add_zero] at h0
    simp only [xor_stream, h0, ih (i1 + 1) (i2 + 1) hr]

theorem keystream_byte_shift (key nonce : List Nat) (c k : Nat) (rounds : Int) (i : Nat) :
    keystream_byte key nonce c rounds (64 * k + i) =
      keystream_byte key nonce ((c + k) % 2 ^ 32) rounds i := by
  have e1 : (64 * k + i) / 64 = k + i / 64 := by omega
  have e2 : (64 * k + i) % 64 = i % 64 := by omega
  have e3 : (c + (k + i / 64)) % 2 ^ 32 = ((c + k) % 2 ^ 32 + i / 64) % 2 ^ 32 := by omega
  rw [keystream_byte, keystream_byte, e1, e2, e3]

/-! ## The BIG_ENDIAN build and byte order -/

theorem word_decomp (w : Nat) (hw : w < 2 ^ 32) :
    w = le_word (w % 256) (w / 2 ^ 8 % 256) (w / 2 ^ 16 % 256) (w / 2 ^ 24 % 256) := by
  unfold le_word; omega

theorem le_word_bytes (b0 b1 b2 b3 : Nat) (h0 : b0 < 256) (h1 : b1 < 256)
    (h2 : b2 < 256) (h3 : b3 < 256) :
    le_word b0 b1 b2 b3 % 256 = b0 ∧ le_word b0 b1 b2 b3 / 2 ^ 8 % 256 = b1 ∧
      le_word b0 b1 b2 b3 / 2 ^ 16 % 256 = b2 ∧ le_word b0 b1 b2 b3 / 2 ^ 24 % 256 = b3 := by
  unfold le_word; refine ⟨?_, ?_, ?_, ?_⟩ <;> omega

theorem bswap_32_eq (w : Nat) :
    bswap_32 w = le_word (w / 2 ^ 24 % 256) (w / 2 ^ 16 % 256) (w / 2 ^ 8 % 256) (w % 256) := by
  unfold bswap_32 le_word; omega

theorem bswap_32_byte (w k : Nat) (_hw : w < 2 ^ 32) (hk : k < 4) :
    (bswap_32 w >>> (8 * (3 - k))) % 256 = (w >>> (8 * k)) % 256 := by
  have hm : ∀ x : Nat, x % 256 < 256 := fun x => Nat.mod_lt x (by decide)
  obtain ⟨f0, f1, f2, f3⟩ := le_word_bytes (w / 2 ^ 24 % 256) (w / 2 ^ 16 % 256)
    (w / 2 ^ 8 % 256) (w % 256) (hm _) (hm _) (hm _) (hm _)
  rw [bswap_32_eq, Nat.shiftRight_eq_div_pow, Nat.shiftRight_eq_div_pow]
  interval_cases k <;> simp only [Nat.reduceMul, Nat.reduceSub] <;> omega

theorem feed_forward_be_eq (m t : List Nat) :
    feed_forward_be m t = (feed_forward m t).map bswap_32 := by
  simp [feed_forward_be, feed_forward, List.map_zipWith]

theorem feed_forward_getD_lt (m t : List Nat) (j : Nat) :
    (feed_forward m t).getD j 0 < 2 ^ 32 := by
  by_cases hj : j < (feed_forward m t).length
  · rw [List.getD_eq_getElem _ _ hj]
    simp only [feed_forward, List.getElem_zipWith]
    exact Nat.mod_lt _ (by decide)
  · rw [List.getD_eq_default _ _ (by omega)]; decide

theorem block_byte_be_map (l : List Nat) (h : ∀ j, l.getD j 0 < 2 ^ 32) (i : Nat) :
    block_byte_be (l.map bswap_32) i = block_byte l i := by
  have e : (l.map bswap_32).getD (i / 4) (bswap_32 0) = bswap_32 (l.getD (i / 4) 0) :=
    List.getD_map l 0 bswap_32
  have z : bswap_32 0 = 0 := rfl
  rw [z] at e
  rw [block_byte_be, block_byte, e]
  exact bswap_32_byte _ _ (h _) (Nat.mod_lt _ (by decide))

theorem build_block_be_eq (key nonce : List Nat) (counter : Nat) (rounds : Int) :
    build_block_be key nonce counter rounds =
      some ((block_val key nonce (bswap_32 counter) rounds).map bswap_32) := by
  have e : init_matrix_be key nonce counter = init_matrix key nonce (bswap_32 counter) := rfl
  unfold build_block_be
  rw [e]
  simp [round_loop_eq, feed_forward_be_eq, block_val, init_matrix]

theorem keystream_block_be_eq (key nonce : List Nat) (counter : Nat) (rounds : Int) :
    keystream_block_be key nonce counter rounds =
      keystream_block_le key nonce (bswap_32 counter) rounds := by
  rw [keystream_block_be, keystream_block_le, build_block_be_eq, build_block_eq]
  simp only [Option.map_some']
  congr 1
  apply List.map_congr_left
  intro i _
  exact block_byte_be_map _ (feed_forward_getD_lt _ _) i

theorem pack_or_eq (b0 b1 b2 b3 : Nat) (h0 : b0 < 256) (h1 : b1 < 256) (h2 : b2 < 256) :
    b0 ||| (b1 <<< 8) ||| (b2 <<< 16) ||| (b3 <<< 24) = le_word b0 b1 b2 b3 := by
  have s1 : b0 < 2 ^ 8 := h0
  have s2 : 2 ^ 8 * b1 + b0 < 2 ^ 16 := by omega
  have s3 : 2 ^ 16 * b2 + (2 ^ 8 * b1 + b0) < 2 ^ 24 := by omega
  rw [Nat.lor_comm (b0 ||| b1 <<< 8 ||| b2 <<< 16) (b3 <<< 24),
    Nat.lor_comm (b0 ||| b1 <<< 8) (b2 <<< 16), Nat.lor_comm b0 (b1 <<< 8),
    Nat.shiftLeft_eq, Nat.shiftLeft_eq, Nat.shiftLeft_eq, Nat.mul_comm b1, Nat.mul_comm b2,
    Nat.mul_comm b3, ← Nat.mul_add_lt_is_or s1, ← Nat.mul_add_lt_is_or s2,
    ← Nat.mul_add_lt_is_or s3]
  unfold le_word
  omega

theorem le_serialize_le_word (b0 b1 b2 b3 : Nat) (h0 : b0 < 256) (h1 : b1 < 256)
    (h2 : b2 < 256) (h3 : b3 < 256) : le_serialize [le_word b0 b1 b2 b3] = [b0, b1, b2, b3] := by
  obtain ⟨e0, e1, e2, e3⟩ := le_word_bytes b0 b1 b2 b3 h0 h1 h2 h3
  simp only [le_serialize, e0, e1, e2, e3]

/-! ## The demonstration run -/

set_option maxRecDepth 1000000 in
theorem demo_block_1 :
    block_val demo_key fixed_nonce 1 20 = demo_blocks.take 16 := by decide

set_option maxRecDepth 1000000 in
theorem demo_block_2 :
    block_val demo_key fixed_nonce 2 20 = demo_blocks.drop 16 := by decide

theorem demo_keystream (i : Nat) (h : i < 128) :
    keystream_byte demo_key fixed_nonce 1 20 i = block_byte demo_blocks i := by
  have hsplit : demo_blocks = demo_blocks.take 16 ++ demo_blocks.drop 16 :=
    (List.take_append_drop 16 demo_blocks).symm
  have hlen : (demo_blocks.take 16).length = 16 := rfl
  unfold keystream_byte block_byte
  by_cases h64 : i < 64
  · have e1 : i / 64 = 0 := by omega
    have e2 : i % 64 = i := by omega
    have e3 : (1 + 0) % 2 ^ 32 = 1 := rfl
    rw [e1, e2, e3, demo_block_1]
    conv_rhs => rw [hsplit, List.getD_append _ _ _ _ (by rw [hlen]; omega)]
  · have e1 : i / 64 = 1 := by omega
    have e2 : i % 64 / 4 = i / 4 - 16 := by omega
    have e3 : (1 + 1) % 2 ^ 32 = 2 := rfl
    have e4 : i % 64 % 4 = i % 4 := by omega
    rw [e1, e2, e3, e4, demo_block_2]
    conv_rhs => rw [hsplit, List.getD_append_right _ _ _ _ (by rw [hlen]; omega), hlen]

theorem xor_stream_congr (ks1 ks2 : Nat → Nat) (buffer : List Nat) :
    ∀ index, (∀ i, i < buffer.length → ks1 (index + i) = ks2 (index + i)) →
      xor_stream ks1 index buffer = xor_stream ks2 index buffer := by
  induction buffer with
  | nil => intro _ _; rfl
  | cons b rest ih =>
    intro index h
    have h0 := h 0 (by simp)
    have hr : ∀ i, i < rest.length → ks1 (index + 1 + i) = ks2 (index + 1 + i) := by
      intro i hi
      have := h (i + 1) (by simpa using hi)
      have e : index + (i + 1) = index + 1 + i := by omega
      rwa [e] at this
    simp only [Nat.add_zero] at h0
    simp only [xor_stream, h0, ih (index + 1) hr]

/-! ## Claims -/

/-- C1: applying `chacha_encrypt_internal` twice with the same key, nonce, start counter
and round count gives back the original buffer (and both runs return). -/
theorem C1_encrypt_involution (K N B : List Nat) (C : Nat) (R : Int)
    (_hK : valid_key K) (_hN : valid_nonce N) (hC : C < 2 ^ 32) (hB : is_bytes B) :
    (chacha_encrypt_internal K N C R B).bind (chacha_encrypt_internal K N C R) = some B := by
  rw [chacha_encrypt_internal_eq K N C R hC, Option.some_bind,
    chacha_encrypt_internal_eq K N C R hC,
    xor_stream_involution _ (keystream_byte_lt K N C R) B hB]

theorem C1_encrypt_involution_witness :
    (chacha_encrypt_internal demo_key fixed_nonce 1 20 [0x4c, 0x61, 0x64]).bind
      (chacha_encrypt_internal demo_key fixed_nonce 1 20) = some [0x4c, 0x61, 0x64] :=
  C1_encrypt_involution demo_key fixed_nonce [0x4c, 0x61, 0x64] 1 20
    (by decide) (by decide) (by decide) (by decide)

/-- C2: the run returns a buffer of the same length, and byte `i` of it is byte `i` of
the input xor-ed with byte `i mod 64` of the little-endian serialisation of the block
`build_block` gives for counter `(C + i / 64) mod 2^32`. -/
theorem C2_keystream_xor (K N B : List Nat) (C : Nat) (R : Int)
    (_hK : valid_key K) (_hN : valid_nonce N) (hC : C < 2 ^ 32) (hB : is_bytes B) :
    ∃ out, chacha_encrypt_internal K N C R B = some out ∧ out.length = B.length ∧
      ∀ i, i < B.length → ∃ blk, build_block K N ((C + i / 64) % 2 ^ 32) R = some blk ∧
        out.getD i 0 = B.getD i 0 ^^^ (le_serialize blk).getD (i % 64) 0 := by
  refine ⟨_, chacha_encrypt_internal_eq K N C R hC B, xor_stream_length _ _ _, ?_⟩
  intro i hi
  refine ⟨_, build_block_eq K N _ R, ?_⟩
  have hbi : B.getD i 0 < 256 := by
    rw [List.getD_eq_getElem _ _ hi]
    exact hB _ (List.getElem_mem _)
  have hk := keystream_byte_lt K N C R i
  have hx : B.getD i 0 ^^^ keystream_byte K N C R i < 2 ^ 8 :=
    Nat.xor_lt_two_pow (by simpa using hbi) (by simpa using hk)
  rw [xor_stream_getD _ _ 0 i hi, Nat.zero_add, Nat.mod_eq_of_lt (by simpa using hx),
    le_serialize_getD _ _ (by rw [block_val_length]; omega)]
  rfl

theorem C2_keystream_xor_witness :
    ∃ out, chacha_encrypt_internal demo_key fixed_nonce 1 20 demo_message = some out ∧
      out.length = demo_message.length ∧
      ∀ i, i < demo_message.length →
        ∃ blk, build_block demo_key fixed_nonce ((1 + i / 64) % 2 ^ 32) 20 = some blk ∧
          out.getD i 0 = demo_message.getD i 0 ^^^ (le_serialize blk).getD (i % 64) 0 :=
  C2_keystream_xor demo_key fixed_nonce demo_message 1 20
    (by decide) (by decide) (by decide) (by decide)

set_option maxRecDepth 1000000 in
/-- C3: the demonstration run (key bytes 0x00..0x1f, key_count 32, the hard-coded
114-byte array `message`, the fixed nonce, initial counter 1, 20 rounds) returns exactly
the 114 ASCII bytes of the plaintext recorded in the comment of `main`. -/
theorem C3_demo_known_answer :
    demo_key.length = 32 ∧ demo_message.length = 114 ∧ demo_text.length = 114 ∧
      demo_run = some (demo_text.toList.map Char.toNat) := by
  refine ⟨rfl, rfl, by decide, ?_⟩
  have hk : demo_key.length = 32 := rfl
  have hks : xor_stream (keystream_byte demo_key fixed_nonce 1 20) 0 demo_message =
      xor_stream (block_byte demo_blocks) 0 demo_message := by
    apply xor_stream_congr
    intro i hi
    have h114 : demo_message.length = 114 := rfl
    rw [Nat.zero_add]
    exact demo_keystream i (by omega)
  rw [demo_run, chacha_encrypt, if_pos hk, chacha_encrypt_internal_eq _ _ _ _ (by decide), hks]
  decide

set_option maxRecDepth 1000000 in
/-- C4: `build_block` on the key 0x00..0x1f, the nonce 00 00 00 09 00 00 00 4a 00 00 00 00,
counter 1 and 20 rounds leaves the reference block of RFC 7539, section 2.3.2: the
sixteen published words, whose little-endian serialisation is the published 64 bytes. -/
theorem C4_block_known_answer :
    build_block demo_key rfc_block_nonce 1 20 = some rfc_block_words ∧
      le_serialize rfc_block_words = rfc_block_bytes := by
  rw [build_block_eq]
  decide

/-- C5: for an even positive round count `R`, `build_block` returns sixteen words, and
word `j` is `(init[j] + P[j]) mod 2^32`, where `init` is the initialised matrix and `P`
is `init` after exactly `R / 2` repetitions of the column round followed by the
diagonal round. -/
theorem C5_block_function (K N : List Nat) (C : Nat) (R : Int)
    (_hK : valid_key K) (_hN : valid_nonce N) (_hC : C < 2 ^ 32)
    (hpos : 0 < R) (heven : R % 2 = 0) :
    ∃ P out, spec_rounds (R / 2).toNat (init_matrix K N C) = some P ∧
      build_block K N C R = some out ∧ out.length = 16 ∧
      ∀ j, j < 16 → out.getD j 0 = ((init_matrix K N C).getD j 0 + P.getD j 0) % 2 ^ 32 := by
  have hp : loop_passes R = (R / 2).toNat := by unfold loop_passes; omega
  refine ⟨_, _, spec_rounds_eq _ _, build_block_eq K N C R, block_val_length K N C R, ?_⟩
  intro j hj
  rw [block_val, hp]
  apply feed_forward_getD
  · simpa [init_matrix] using hj
  · rw [iterate_double_round_val_length]; simpa [init_matrix] using hj

theorem C5_block_function_witness :
    ∃ P out, spec_rounds ((20 : Int) / 2).toNat (init_matrix demo_key rfc_block_nonce 1) = some P ∧
      build_block demo_key rfc_block_nonce 1 20 = some out ∧ out.length = 16 ∧
      ∀ j, j < 16 →
        out.getD j 0 = ((init_matrix demo_key rfc_block_nonce 1).getD j 0 + P.getD j 0) % 2 ^ 32 :=
  C5_block_function demo_key rfc_block_nonce 1 20
    (by decide) (by decide) (by decide) (by decide) (by decide)

/-- C6: for a 32-byte key, a 12-byte nonce and a counter, the matrix `build_block`
initialises is, row-major, the four words of "expand 32-byte k" (0x61707865,
0x3320646e, 0x79622d32, 0x6b206574), the eight little-endian key words, the counter,
and the three little-endian nonce words; the rounds and the final addition of
`build_block` start from it. -/
theorem C6_state_layout (K N : List Nat) (C : Nat) (R : Int)
    (hK : valid_key K) (hN : valid_nonce N) (_hC : C < 2 ^ 32) :
    init_matrix K N C = spec_layout K N C ∧
      le_serialize [0x61707865, 0x3320646e, 0x79622d32, 0x6b206574] =
        "expand 32-byte k".toList.map Char.toNat ∧
      ∃ t, round_loop R (spec_layout K N C) = some t ∧
        build_block K N C R = some (feed_forward (spec_layout K N C) t) := by
  have h := init_matrix_eq K N C hK.2 hN.2
  refine ⟨h, by decide, _, round_loop_eq R _, ?_⟩
  rw [build_block_eq, block_val, h]

theorem C6_state_layout_witness :
    init_matrix demo_key rfc_block_nonce 1 = spec_layout demo_key rfc_block_nonce 1 ∧
      le_serialize [0x61707865, 0x3320646e, 0x79622d32, 0x6b206574] =
        "expand 32-byte k".toList.map Char.toNat ∧
      ∃ t, round_loop 20 (spec_layout demo_key rfc_block_nonce 1) = some t ∧
        build_block demo_key rfc_block_nonce 1 20 =
          some (feed_forward (spec_layout demo_key rfc_block_nonce 1) t) :=
  C6_state_layout demo_key rfc_block_nonce 1 20 (by decide) (by decide) (by decide)

/-- C7: on four 32-bit words `quarter_round` returns, and what it returns is the
four-step mixing sequence of the specification (additions modulo 2^32, rotations by
16, 12, 8, 7); the result is a function of the four inputs alone.  The test vector of
RFC 7539, section 2.1.1, is reproduced. -/
theorem C7_quarter_round_spec (a b c d : Nat) (ha : a < 2 ^ 32) (hb : b < 2 ^ 32)
    (hc : c < 2 ^ 32) (hd : d < 2 ^ 32) :
    quarter_round a b c d = some (spec_quarter_round a b c d) ∧
      quarter_round 0x11111111 0x01020304 0x9b8d6f43 0x01234567 =
        some (0xea2a92f4, 0xcb1cf8ce, 0x4581472e, 0x5881c4bb) := by
  refine ⟨?_, by decide⟩
  obtain ⟨ha1, hd1, _, _⟩ := mix_step_undo a b d 16 ha hb hd (by decide) (by decide)
  obtain ⟨hc1, hb1, _, _⟩ := mix_step_undo c _ b 12 hc hd1 hb (by decide) (by decide)
  obtain ⟨ha2, hd2, _, _⟩ := mix_step_undo _ _ _ 8 ha1 hb1 hd1 (by decide) (by decide)
  obtain ⟨hc2, _, _, _⟩ := mix_step_undo _ _ _ 7 hc1 hd2 hb1 (by decide) (by decide)
  have r1 := rotl_val_eq_spec _ 16 (Nat.xor_lt_two_pow hd ha1) (by decide) (by decide)
  have r2 := rotl_val_eq_spec _ 12 (Nat.xor_lt_two_pow hb hc1) (by decide) (by decide)
  have r3 := rotl_val_eq_spec _ 8 (Nat.xor_lt_two_pow hd1 ha2) (by decide) (by decide)
  have r4 := rotl_val_eq_spec _ 7 (Nat.xor_lt_two_pow hb1 hc2) (by decide) (by decide)
  rw [quarter_round_eq]
  simp only [qr_val, spec_quarter_round]
  rw [r4, r3, r2, r1]

theorem C7_quarter_round_spec_witness :
    quarter_round 0x11111111 0x01020304 0x9b8d6f43 0x01234567 =
        some (spec_quarter_round 0x11111111 0x01020304 0x9b8d6f43 0x01234567) ∧
      quarter_round 0x11111111 0x01020304 0x9b8d6f43 0x01234567 =
        some (0xea2a92f4, 0xcb1cf8ce, 0x4581472e, 0x5881c4bb) :=
  C7_quarter_round_spec 0x11111111 0x01020304 0x9b8d6f43 0x01234567
    (by decide) (by decide) (by decide) (by decide)

/-- C8: on quadruples of 32-bit words, `quarter_round` followed by the backward
sequence `quarter_round_inv` restores the quadruple, the backward sequence followed by
`quarter_round` does too, and both stay within 32-bit words; hence `quarter_round` is
injective and surjective on such quadruples. -/
theorem C8_quarter_round_bijective (a b c d : Nat) (ha : a < 2 ^ 32) (hb : b < 2 ^ 32)
    (hc : c < 2 ^ 32) (hd : d < 2 ^ 32) :
    (∃ q, quarter_round a b c d = some q ∧ is_words [q.1, q.2.1, q.2.2.1, q.2.2.2] ∧
        quarter_round_inv q.1 q.2.1 q.2.2.1 q.2.2.2 = (a, b, c, d)) ∧
      (∀ a1 b1 c1 d1, is_words [a1, b1, c1, d1] →
        quarter_round a1 b1 c1 d1 = quarter_round a b c d → (a1, b1, c1, d1) = (a, b, c, d)) ∧
      (∃ p : Nat × Nat × Nat × Nat, is_words [p.1, p.2.1, p.2.2.1, p.2.2.2] ∧
        quarter_round p.1 p.2.1 p.2.2.1 p.2.2.2 = some (a, b, c, d)) := by
  refine ⟨⟨qr_val a b c d, quarter_round_eq a b c d, qr_val_inv a b c d ha hb hc hd⟩, ?_,
    ⟨quarter_round_inv a b c d, (qr_val_of_inv a b c d ha hb hc hd).1, ?_⟩⟩
  · intro a1 b1 c1 d1 hw heq
    rw [quarter_round_eq, quarter_round_eq, Option.some.injEq] at heq
    have h1 := (qr_val_inv a1 b1 c1 d1 (hw a1 (by simp)) (hw b1 (by simp)) (hw c1 (by simp))
      (hw d1 (by simp))).2
    have h2 := (qr_val_inv a b c d ha hb hc hd).2
    rw [heq] at h1
    rw [← h1, h2]
  · rw [quarter_round_eq, (qr_val_of_inv a b c d ha hb hc hd).2]

theorem C8_quarter_round_bijective_witness :
    (∃ q, quarter_round 0x11111111 0x01020304 0x9b8d6f43 0x01234567 = some q ∧
        is_words [q.1, q.2.1, q.2.2.1, q.2.2.2] ∧
        quarter_round_inv q.1 q.2.1 q.2.2.1 q.2.2.2 =
          (0x11111111, 0x01020304, 0x9b8d6f43, 0x01234567)) ∧
      (∀ a1 b1 c1 d1, is_words [a1, b1, c1, d1] →
        quarter_round a1 b1 c1 d1 = quarter_round 0x11111111 0x01020304 0x9b8d6f43 0x01234567 →
        (a1, b1, c1, d1) = (0x11111111, 0x01020304, 0x9b8d6f43, 0x01234567)) ∧
      (∃ p : Nat × Nat × Nat × Nat, is_words [p.1, p.2.1, p.2.2.1, p.2.2.2] ∧
        quarter_round p.1 p.2.1 p.2.2.1 p.2.2.2 =
          some (0x11111111, 0x01020304, 0x9b8d6f43, 0x01234567)) :=
  C8_quarter_round_bijective 0x11111111 0x01020304 0x9b8d6f43 0x01234567
    (by decide) (by decide) (by decide) (by decide)

/-- C9: for a 32-bit word `x` and an amount `n` with `1 ≤ n ≤ 31`, `rotl_uint32`
returns a 32-bit word whose bit `i` is bit `(i - n) mod 32` of `x` (the bits shifted out
of the top re-enter at the bottom); it is the arithmetic rotation `spec_rotl x n`, and
it is what `n` applications of `rotl_uint32(., 1)` give. -/
theorem C9_rotl_correct (x n : Nat) (hx : x < 2 ^ 32) (h1 : 1 ≤ n) (h31 : n ≤ 31) :
    ∃ r, rotl_uint32 x n = some r ∧ r < 2 ^ 32 ∧
      (∀ i, i < 32 → r.testBit i = x.testBit ((i + 32 - n) % 32)) ∧
      r = spec_rotl x n ∧ iter_rotl1 n x = some r := by
  refine ⟨rotl_val x n, rotl_uint32_eq x n (by omega), rotl_val_lt x n hx (by omega) (by omega),
    ?_, rotl_val_eq_spec x n hx (by omega) (by omega), iter_rotl1_eq n x hx (by omega) (by omega)⟩
  intro i hi
  rw [rotl_val_testBit x n hx (by omega) (by omega)]
  simp [hi]

theorem C9_rotl_correct_witness :
    ∃ r, rotl_uint32 0x80000001 31 = some r ∧ r < 2 ^ 32 ∧
      (∀ i, i < 32 → r.testBit i = (0x80000001 : Nat).testBit ((i + 32 - 31) % 32)) ∧
      r = spec_rotl 0x80000001 31 ∧ iter_rotl1 31 0x80000001 = some r :=
  C9_rotl_correct 0x80000001 31 (by decide) (by decide) (by decide)

/-- C10 (the code at the amount 0): `rotl_uint32` takes the fatal path exactly for the
amounts `n ≥ 32`; for the amount 0 the assertion `n < 32` holds and a value is
returned. -/
theorem C10_rotl_zero_not_fatal :
    rotl_uint32 0x12345678 0 = some 0x12345678 ∧
      (∀ x, rotl_uint32 x 0 ≠ none) ∧ (∀ x n, rotl_uint32 x n = none ↔ 32 ≤ n) := by
  refine ⟨by decide, ?_, ?_⟩
  · intro x; simp [rotl_uint32]
  · intro x n
    unfold rotl_uint32
    by_cases h : n < 32
    · simp [h]
    · simp [h]; omega

/-- C11: `chacha_encrypt` takes the fatal path exactly when `key_count` is not 32 (so
for 31 and for 33); it then stops before anything is written, the buffer holding what
it held; for `key_count = 32` it returns, and the buffer holds what
`chacha_encrypt_internal` leaves for the fixed nonce, counter 1 and 20 rounds. -/
theorem C11_key_length (K B : List Nat) (key_count : Nat) :
    (chacha_encrypt K key_count B = none ↔ key_count ≠ 32) ∧
      ((chacha_encrypt_run K key_count B).2 = true ↔ key_count ≠ 32) ∧
      chacha_encrypt K 31 B = none ∧ chacha_encrypt K 33 B = none ∧
      (key_count ≠ 32 → chacha_encrypt_run K key_count B = (B, true)) ∧
      ∃ out, chacha_encrypt K 32 B = some out ∧ chacha_encrypt_run K 32 B = (out, false) ∧
        chacha_encrypt_internal K fixed_nonce 1 20 B = some out ∧ out.length = B.length := by
  have hrun := encrypt_loop_run_eq K fixed_nonce 20 B 0 1 (List.replicate 16 0)
  have hint := chacha_encrypt_internal_eq K fixed_nonce 1 20 (by decide) B
  refine ⟨?_, ?_, rfl, rfl, ?_, _, ?_, ?_, hint, xor_stream_length _ _ _⟩
  · by_cases h : key_count = 32
    · simp [chacha_encrypt, h, hint]
    · simp [chacha_encrypt, h]
  · by_cases h : key_count = 32
    · have ht : (chacha_encrypt_internal_run K fixed_nonce 1 20 B).trapped = false := hrun.1
      simp [chacha_encrypt_run, h, ht]
    · simp [chacha_encrypt_run, h]
  · intro h; simp [chacha_encrypt_run, h]
  · simp [chacha_encrypt, hint]
  · have e : (chacha_encrypt_internal_run K fixed_nonce 1 20 B).buffer =
        xor_stream (keystream_byte K fixed_nonce 1 20) 0 B := by
      have h2 := hrun.2
      rw [← chacha_encrypt_internal, hint] at h2
      exact (Option.some.inj h2).symm
    simp only [chacha_encrypt_run, if_true, e]
    rw [show (chacha_encrypt_internal_run K fixed_nonce 1 20 B).trapped = false from hrun.1]

set_option maxRecDepth 1000000 in
/-- C12 (the claim fails): for the odd round count 7 and for the round count 0
`build_block` returns a block; it does not fail. -/
theorem C12_rounds_counterexample :
    (7 : Int) % 2 = 1 ∧
      build_block demo_key fixed_nonce 1 7 = some demo_block_rounds_7 ∧
      build_block demo_key fixed_nonce 1 0 = some demo_block_rounds_0 := by
  rw [build_block_eq, build_block_eq]
  decide

/-- C12 (as amended): `build_block` has no precondition on the round count.  For every
round count it returns a block, and `chacha_encrypt_internal` returns on every buffer;
an odd positive round count gives the block of the next even one, and a round count
`≤ 0` gives the block with no round applied. -/
theorem C12_rounds_not_checked (K N B : List Nat) (C : Nat) (R : Int)
    (_hK : valid_key K) (_hN : valid_nonce N) (hC : C < 2 ^ 32) :
    ∃ blk, build_block K N C R = some blk ∧
      (0 < R → R % 2 = 1 → build_block K N C (R + 1) = some blk) ∧
      (R ≤ 0 → blk = feed_forward (init_matrix K N C) (init_matrix K N C)) ∧
      chacha_encrypt_internal K N C R B ≠ none := by
  refine ⟨_, build_block_eq K N C R, ?_, ?_, ?_⟩
  · intro hpos hodd
    have e : loop_passes (R + 1) = loop_passes R := by unfold loop_passes; omega
    rw [build_block_eq, block_val, block_val, e]
  · intro h
    rw [block_val, loop_passes_nonpos R h]
    rfl
  · rw [chacha_encrypt_internal_eq K N C R hC]
    exact Option.some_ne_none _

theorem C12_rounds_not_checked_witness :
    ∃ blk, build_block demo_key fixed_nonce 1 7 = some blk ∧
      (0 < (7 : Int) → (7 : Int) % 2 = 1 → build_block demo_key fixed_nonce 1 (7 + 1) = some blk) ∧
      ((7 : Int) ≤ 0 →
        blk = feed_forward (init_matrix demo_key fixed_nonce 1) (init_matrix demo_key fixed_nonce 1)) ∧
      chacha_encrypt_internal demo_key fixed_nonce 1 7 demo_message ≠ none :=
  C12_rounds_not_checked demo_key fixed_nonce demo_message 1 7
    (by decide) (by decide) (by decide)

/-- C13: on a buffer of length `n`, `chacha_encrypt_internal` invokes `build_block`
exactly `ceil(n / 64)` times, with the counters `C, C+1, ...` modulo 2^32 in that order,
and `block_counter` ends at `(C + ceil(n / 64)) mod 2^32`; for `n = 130` the calls are
`C, C+1, C+2`, for `n = 0` there is none. -/
theorem C13_counter_advance (K N B : List Nat) (C : Nat) (R : Int)
    (_hK : valid_key K) (_hN : valid_nonce N) (hC : C < 2 ^ 32) :
    (chacha_encrypt_internal_run K N C R B).trapped = false ∧
      chacha_encrypt_internal K N C R B = some (chacha_encrypt_internal_run K N C R B).buffer ∧
      (chacha_encrypt_internal_run K N C R B).calls =
        (List.range ((B.length + 63) / 64)).map (fun j => (C + j) % 2 ^ 32) ∧
      (chacha_encrypt_internal_run K N C R B).calls.length = (B.length + 63) / 64 ∧
      (chacha_encrypt_internal_run K N C R B).block_counter =
        (C + (B.length + 63) / 64) % 2 ^ 32 ∧
      (B.length = 130 → (chacha_encrypt_internal_run K N C R B).calls =
        [C, (C + 1) % 2 ^ 32, (C + 2) % 2 ^ 32]) ∧
      (B.length = 0 → (chacha_encrypt_internal_run K N C R B).calls = []) := by
  obtain ⟨h1, h2⟩ := encrypt_loop_run_eq K N R B 0 C (List.replicate 16 0)
  obtain ⟨h3, h4⟩ := encrypt_loop_run_calls K N R B 0 C (List.replicate 16 0) hC
  have e : (0 + B.length + 63) / 64 - (0 + 63) / 64 = (B.length + 63) / 64 := by omega
  rw [e] at h3 h4
  refine ⟨h1, h2, h3, ?_, h4, ?_, ?_⟩
  · rw [chacha_encrypt_internal_run, h3, List.length_map, List.length_range]
  · intro hn
    rw [chacha_encrypt_internal_run, h3, hn]
    have hC2 : C < 4294967296 := hC
    simp [List.range_succ, Nat.mod_eq_of_lt hC2]
  · intro hn
    rw [chacha_encrypt_internal_run, h3, hn]
    rfl

theorem C13_counter_advance_witness :
    (chacha_encrypt_internal_run demo_key fixed_nonce 1 20 demo_message).trapped = false ∧
      chacha_encrypt_internal demo_key fixed_nonce 1 20 demo_message =
        some (chacha_encrypt_internal_run demo_key fixed_nonce 1 20 demo_message).buffer ∧
      (chacha_encrypt_internal_run demo_key fixed_nonce 1 20 demo_message).calls =
        (List.range ((demo_message.length + 63) / 64)).map (fun j => (1 + j) % 2 ^ 32) ∧
      (chacha_encrypt_internal_run demo_key fixed_nonce 1 20 demo_message).calls.length =
        (demo_message.length + 63) / 64 ∧
      (chacha_encrypt_internal_run demo_key fixed_nonce 1 20 demo_message).block_counter =
        (1 + (demo_message.length + 63) / 64) % 2 ^ 32 ∧
      (demo_message.length = 130 →
        (chacha_encrypt_internal_run demo_key fixed_nonce 1 20 demo_message).calls =
          [1, (1 + 1) % 2 ^ 32, (1 + 2) % 2 ^ 32]) ∧
      (demo_message.length = 0 →
        (chacha_encrypt_internal_run demo_key fixed_nonce 1 20 demo_message).calls = []) :=
  C13_counter_advance demo_key fixed_nonce demo_message 1 20
    (by decide) (by decide) (by decide)

/-- C14: for `m ≤ length B`, encrypting the first `m` bytes of `B` gives exactly the
first `m` bytes of encrypting `B`; the output has the length of the input, with no
padding and no rounding up to 64. -/
theorem C14_short_final_block (K N B : List Nat) (C : Nat) (R : Int) (m : Nat)
    (_hK : valid_key K) (_hN : valid_nonce N) (hC : C < 2 ^ 32) (hm : m ≤ B.length) :
    ∃ out, chacha_encrypt_internal K N C R B = some out ∧ out.length = B.length ∧
      chacha_encrypt_internal K N C R (B.take m) = some (out.take m) ∧
      (out.take m).length = m := by
  refine ⟨_, chacha_encrypt_internal_eq K N C R hC B, xor_stream_length _ _ _, ?_, ?_⟩
  · rw [chacha_encrypt_internal_eq K N C R hC, xor_stream_take]
  · rw [List.length_take, xor_stream_length]
    omega

theorem C14_short_final_block_witness :
    ∃ out, chacha_encrypt_internal demo_key fixed_nonce 1 20 demo_message = some out ∧
      out.length = demo_message.length ∧
      chacha_encrypt_internal demo_key fixed_nonce 1 20 (demo_message.take 100) =
        some (out.take 100) ∧
      (out.take 100).length = 100 :=
  C14_short_final_block demo_key fixed_nonce demo_message 1 20 100
    (by decide) (by decide) (by decide) (by decide)

/-- C15: for a buffer `A` of length `64 * k` and a buffer `B`, encrypting `A ++ B` from
counter `C` gives the encryption of `A` from counter `C` followed by the encryption of
`B` from counter `(C + k) mod 2^32`. -/
theorem C15_block_split (K N A B : List Nat) (C k : Nat) (R : Int)
    (_hK : valid_key K) (_hN : valid_nonce N) (hC : C < 2 ^ 32) (hA : A.length = 64 * k) :
    ∃ ea eb, chacha_encrypt_internal K N C R A = some ea ∧
      chacha_encrypt_internal K N ((C + k) % 2 ^ 32) R B = some eb ∧
      chacha_encrypt_internal K N C R (A ++ B) = some (ea ++ eb) := by
  refine ⟨_, _, chacha_encrypt_internal_eq K N C R hC A,
    chacha_encrypt_internal_eq K N _ R (Nat.mod_lt _ (by decide)) B, ?_⟩
  rw [chacha_encrypt_internal_eq K N C R hC, xor_stream_append, Nat.zero_add, hA]
  congr 2
  apply xor_stream_shift
  intro j _
  rw [Nat.zero_add]
  exact keystream_byte_shift K N C k R j

theorem C15_block_split_witness :
    ∃ ea eb, chacha_encrypt_internal demo_key fixed_nonce 1 20 (demo_message.take 64) = some ea ∧
      chacha_encrypt_internal demo_key fixed_nonce ((1 + 1) % 2 ^ 32) 20
        (demo_message.drop 64) = some eb ∧
      chacha_encrypt_internal demo_key fixed_nonce 1 20
        (demo_message.take 64 ++ demo_message.drop 64) = some (ea ++ eb) :=
  C15_block_split demo_key fixed_nonce (demo_message.take 64) (demo_message.drop 64) 1 1 20
    (by decide) (by decide) (by decide) (by decide)

/-- C16: started with the counter 0xFFFFFFFF on a buffer longer than 64 bytes,
`chacha_encrypt_internal` returns without a trap; its first two `build_block` calls
are for the counters 0xFFFFFFFF and 0, and the bytes 64..127 of the buffer are xor-ed
with the serialised block built for counter 0. -/
theorem C16_counter_wrap (K N B : List Nat) (R : Int)
    (_hK : valid_key K) (_hN : valid_nonce N) (hB : is_bytes B) (hlen : 64 < B.length) :
    ∃ out blk0, chacha_encrypt_internal K N 0xFFFFFFFF R B = some out ∧
      build_block K N 0 R = some blk0 ∧
      (∀ i, 64 ≤ i → i < 128 → i < B.length →
        out.getD i 0 = B.getD i 0 ^^^ (le_serialize blk0).getD (i - 64) 0) ∧
      (chacha_encrypt_internal_run K N 0xFFFFFFFF R B).trapped = false ∧
      ∃ later, (chacha_encrypt_internal_run K N 0xFFFFFFFF R B).calls =
        0xFFFFFFFF :: 0 :: later := by
  have hC : 0xFFFFFFFF < 2 ^ 32 := by decide
  obtain ⟨h1, _⟩ := encrypt_loop_run_eq K N R B 0 0xFFFFFFFF (List.replicate 16 0)
  obtain ⟨h3, _⟩ := encrypt_loop_run_calls K N R B 0 0xFFFFFFFF (List.replicate 16 0) hC
  refine ⟨_, _, chacha_encrypt_internal_eq K N _ R hC B, build_block_eq K N 0 R, ?_, h1, ?_⟩
  · intro i h64 h128 hi
    have hbi : B.getD i 0 < 256 := getD_lt_of_is_bytes B hB i
    have hk := keystream_byte_lt K N 0xFFFFFFFF R i
    have hx : B.getD i 0 ^^^ keystream_byte K N 0xFFFFFFFF R i < 2 ^ 8 :=
      Nat.xor_lt_two_pow (by simpa using hbi) (by simpa using hk)
    have e1 : i / 64 = 1 := by omega
    have e2 : i % 64 = i - 64 := by omega
    have e3 : (0xFFFFFFFF + 1) % 2 ^ 32 = 0 := by decide
    rw [xor_stream_getD _ _ 0 i hi, Nat.zero_add, Nat.mod_eq_of_lt (by simpa using hx),
      le_serialize_getD _ _ (by rw [block_val_length]; omega)]
    rw [keystream_byte, e1, e2, e3]
  · obtain ⟨c, hc⟩ : ∃ c, (0 + B.length + 63) / 64 - (0 + 63) / 64 = c + 1 + 1 :=
      ⟨(B.length + 63) / 64 - 2, by omega⟩
    rw [hc, counters_shift, counters_shift] at h3
    exact ⟨_, h3⟩

theorem C16_counter_wrap_witness :
    ∃ out blk0, chacha_encrypt_internal demo_key fixed_nonce 0xFFFFFFFF 20 demo_message = some out ∧
      build_block demo_key fixed_nonce 0 20 = some blk0 ∧
      (∀ i, 64 ≤ i → i < 128 → i < demo_message.length →
        out.getD i 0 = demo_message.getD i 0 ^^^ (le_serialize blk0).getD (i - 64) 0) ∧
      (chacha_encrypt_internal_run demo_key fixed_nonce 0xFFFFFFFF 20 demo_message).trapped = false ∧
      ∃ later, (chacha_encrypt_internal_run demo_key fixed_nonce 0xFFFFFFFF 20 demo_message).calls =
        0xFFFFFFFF :: 0 :: later :=
  C16_counter_wrap demo_key fixed_nonce demo_message 20
    (by decide) (by decide) (by decide) (by decide)

set_option maxRecDepth 1000000 in
/-- C17 (the code on the claim's input): the keystream block of the BIG_ENDIAN build for
a counter `c` is the keystream block of the default build for the counter `bswap_32 c`.
For the demonstration key, the fixed nonce, 20 rounds and counter 1 the BIG_ENDIAN build
gives a block starting 07 19 d6 00, the default build the block starting 22 4f 51 f3:
the two builds do not give the same keystream. -/
theorem C17_big_endian_counter :
    (∀ K N c R, keystream_block_be K N c R = keystream_block_le K N (bswap_32 c) R) ∧
      bswap_32 1 = 0x01000000 ∧
      (keystream_block_be demo_key fixed_nonce 1 20).map (List.take 4) =
        some [0x07, 0x19, 0xd6, 0x00] ∧
      (keystream_block_le demo_key fixed_nonce 1 20).map (List.take 4) =
        some [0x22, 0x4f, 0x51, 0xf3] ∧
      keystream_block_be demo_key fixed_nonce 1 20 ≠
        keystream_block_le demo_key fixed_nonce 1 20 := by
  have h1 : (keystream_block_be demo_key fixed_nonce 1 20).map (List.take 4) =
      some [0x07, 0x19, 0xd6, 0x00] := by
    rw [keystream_block_be_eq, keystream_block_le, build_block_eq]
    decide
  have h2 : (keystream_block_le demo_key fixed_nonce 1 20).map (List.take 4) =
      some [0x22, 0x4f, 0x51, 0xf3] := by
    rw [keystream_block_le, build_block_eq]
    decide
  refine ⟨keystream_block_be_eq, by decide, h1, h2, ?_⟩
  intro h
  rw [h, h2] at h1
  exact absurd h1 (by decide)

/-- C18: for bytes `b0 b1 b2 b3`, `pack4_uint8` returns the 32-bit word
`b0 + 2^8 b1 + 2^16 b2 + 2^24 b3`, which is `b0 | b1<<8 | b2<<16 | b3<<24`; the four
little-endian bytes of that word are `b0 b1 b2 b3` again, so the packing is injective;
the word depends only on the four bytes at `src + off`. -/
theorem C18_pack4_little_endian (b0 b1 b2 b3 : Nat) (h0 : b0 < 256) (h1 : b1 < 256)
    (h2 : b2 < 256) (h3 : b3 < 256) :
    pack4_uint8 [b0, b1, b2, b3] 0 = b0 + 2 ^ 8 * b1 + 2 ^ 16 * b2 + 2 ^ 24 * b3 ∧
      pack4_uint8 [b0, b1, b2, b3] 0 = b0 ||| (b1 <<< 8) ||| (b2 <<< 16) ||| (b3 <<< 24) ∧
      pack4_uint8 [b0, b1, b2, b3] 0 < 2 ^ 32 ∧
      le_serialize [pack4_uint8 [b0, b1, b2, b3] 0] = [b0, b1, b2, b3] ∧
      (∀ c0 c1 c2 c3, c0 < 256 → c1 < 256 → c2 < 256 → c3 < 256 →
        pack4_uint8 [c0, c1, c2, c3] 0 = pack4_uint8 [b0, b1, b2, b3] 0 →
        c0 = b0 ∧ c1 = b1 ∧ c2 = b2 ∧ c3 = b3) ∧
      (∀ src off, src.getD off 0 = b0 → src.getD (off + 1) 0 = b1 →
        src.getD (off + 2) 0 = b2 → src.getD (off + 3) 0 = b3 →
        pack4_uint8 src off = pack4_uint8 [b0, b1, b2, b3] 0) := by
  have hp : ∀ c0 c1 c2 c3, c0 < 256 → c1 < 256 → c2 < 256 → c3 < 256 →
      pack4_uint8 [c0, c1, c2, c3] 0 = le_word c0 c1 c2 c3 :=
    fun c0 c1 c2 c3 g0 g1 g2 g3 => pack_bytes_eq c0 c1 c2 c3 g0 g1 g2 g3
  have hb := hp b0 b1 b2 b3 h0 h1 h2 h3
  refine ⟨hb, ?_, ?_, ?_, ?_, ?_⟩
  · rw [hb, pack_or_eq b0 b1 b2 b3 h0 h1 h2]
  · rw [hb]; unfold le_word; omega
  · rw [hb]; exact le_serialize_le_word b0 b1 b2 b3 h0 h1 h2 h3
  · intro c0 c1 c2 c3 g0 g1 g2 g3 heq
    rw [hp c0 c1 c2 c3 g0 g1 g2 g3, hb] at heq
    have hs := le_serialize_le_word c0 c1 c2 c3 g0 g1 g2 g3
    rw [heq, le_serialize_le_word b0 b1 b2 b3 h0 h1 h2 h3] at hs
    simp only [List.cons.injEq, and_true] at hs
    exact ⟨hs.1.symm, hs.2.1.symm, hs.2.2.1.symm, hs.2.2.2.symm⟩
  · intro src off e0 e1 e2 e3
    rw [hb, pack4_uint8, e0, e1, e2, e3]
    exact pack_bytes_eq b0 b1 b2 b3 h0 h1 h2 h3

theorem C18_pack4_little_endian_witness :
    pack4_uint8 [0x78, 0x56, 0x34, 0x92] 0 = 0x78 + 2 ^ 8 * 0x56 + 2 ^ 16 * 0x34 + 2 ^ 24 * 0x92 ∧
      pack4_uint8 [0x78, 0x56, 0x34, 0x92] 0 =
        0x78 ||| (0x56 <<< 8) ||| (0x34 <<< 16) ||| (0x92 <<< 24) ∧
      pack4_uint8 [0x78, 0x56, 0x34, 0x92] 0 < 2 ^ 32 ∧
      le_serialize [pack4_uint8 [0x78, 0x56, 0x34, 0x92] 0] = [0x78, 0x56, 0x34, 0x92] ∧
      (∀ c0 c1 c2 c3, c0 < 256 → c1 < 256 → c2 < 256 → c3 < 256 →
        pack4_uint8 [c0, c1, c2, c3] 0 = pack4_uint8 [0x78, 0x56, 0x34, 0x92] 0 →
        c0 = 0x78 ∧ c1 = 0x56 ∧ c2 = 0x34 ∧ c3 = 0x92) ∧
      (∀ src off, src.getD off 0 = 0x78 → src.getD (off + 1) 0 = 0x56 →
        src.getD (off + 2) 0 = 0x34 → src.getD (off + 3) 0 = 0x92 →
        pack4_uint8 src off = pack4_uint8 [0x78, 0x56, 0x34, 0x92] 0) :=
  C18_pack4_little_endian 0x78 0x56 0x34 0x92 (by decide) (by decide) (by decide) (by decide)

/-- C19: no assertion is reached.  `quarter_round` is its body run with `rotl_uint32`,
and it gives the same result when every rotation amount outside {16, 12, 8, 7} is made
to fail, so it never fails; `build_block` stores sixteen words and never fails;
`chacha_encrypt_internal` never fails; hence `chacha_encrypt` with `key_count = 32`
does not take the fatal path. -/
theorem C19_assertion_freedom (K N B : List Nat) (C : Nat) (R : Int) (a b c d : Nat)
    (_hK : valid_key K) (_hN : valid_nonce N) (hC : C < 2 ^ 32) (_hB : is_bytes B) :
    quarter_round a b c d = quarter_round_with rotl_uint32 a b c d ∧
      quarter_round_with rotl_uint32_checked a b c d = quarter_round a b c d ∧
      quarter_round a b c d ≠ none ∧
      (init_matrix K N C).length = 16 ∧
      build_block K N C R ≠ none ∧
      chacha_encrypt_internal K N C R B ≠ none ∧
      (chacha_encrypt_internal_run K N C R B).trapped = false ∧
      chacha_encrypt K 32 B ≠ none ∧ (chacha_encrypt_run K 32 B).2 = false := by
  have ht : (chacha_encrypt_internal_run K fixed_nonce 1 20 B).trapped = false :=
    (encrypt_loop_run_eq K fixed_nonce 20 B 0 1 (List.replicate 16 0)).1
  refine ⟨rfl, ?_, ?_, rfl, ?_, ?_, (encrypt_loop_run_eq K N R B 0 C (List.replicate 16 0)).1,
    ?_, ?_⟩
  · simp [quarter_round_with, rotl_uint32_checked, quarter_round]
  · rw [quarter_round_eq]; exact Option.some_ne_none _
  · rw [build_block_eq]; exact Option.some_ne_none _
  · rw [chacha_encrypt_internal_eq K N C R hC]; exact Option.some_ne_none _
  · rw [chacha_encrypt, if_pos rfl, chacha_encrypt_internal_eq K fixed_nonce 1 20 (by decide)]
    exact Option.some_ne_none _
  · simp [chacha_encrypt_run, ht]

theorem C19_assertion_freedom_witness :
    quarter_round 0x11111111 0x01020304 0x9b8d6f43 0x01234567 =
        quarter_round_with rotl_uint32 0x11111111 0x01020304 0x9b8d6f43 0x01234567 ∧
      quarter_round_with rotl_uint32_checked 0x11111111 0x01020304 0x9b8d6f43 0x01234567 =
        quarter_round 0x11111111 0x01020304 0x9b8d6f43 0x01234567 ∧
      quarter_round 0x11111111 0x01020304 0x9b8d6f43 0x01234567 ≠ none ∧
      (init_matrix demo_key fixed_nonce 1).length = 16 ∧
      build_block demo_key fixed_nonce 1 20 ≠ none ∧
      chacha_encrypt_internal demo_key fixed_nonce 1 20 demo_message ≠ none ∧
      (chacha_encrypt_internal_run demo_key fixed_nonce 1 20 demo_message).trapped = false ∧
      chacha_encrypt demo_key 32 demo_message ≠ none ∧
      (chacha_encrypt_run demo_key 32 demo_message).2 = false :=
  C19_assertion_freedom demo_key fixed_nonce demo_message 1 20
    0x11111111 0x01020304 0x9b8d6f43 0x01234567 (by decide) (by decide) (by decide) (by decide)

/-- C20: for every round count `R`, `build_block` returns, after exactly
`max(0, ceil(R / 2))` repetitions of the column round and diagonal round; an odd
`2k - 1 > 0` gives the same block as `2k`, and for `R ≤ 0` no round is applied and every
output word is `(2 * init[j]) mod 2^32`. -/
theorem C20_round_loop_count (K N : List Nat) (C : Nat) (R : Int)
    (_hK : valid_key K) (_hN : valid_nonce N) (_hC : C < 2 ^ 32) :
    ∃ P out, spec_rounds (max 0 ((R + 1) / 2)).toNat (init_matrix K N C) = some P ∧
      build_block K N C R = some out ∧ out = feed_forward (init_matrix K N C) P ∧
      (∀ k : Int, 0 < k → build_block K N C (2 * k - 1) = build_block K N C (2 * k)) ∧
      (R ≤ 0 → P = init_matrix K N C ∧
        ∀ j, j < 16 → out.getD j 0 = (2 * (init_matrix K N C).getD j 0) % 2 ^ 32) := by
  have hp : loop_passes R = (max 0 ((R + 1) / 2)).toNat := by unfold loop_passes; omega
  refine ⟨_, _, spec_rounds_eq _ _, build_block_eq K N C R, ?_, ?_, ?_⟩
  · rw [block_val, hp]
  · intro k hk
    rw [build_block_eq, build_block_eq, block_val, block_val, loop_passes_odd k hk]
  · intro hR
    have h0 : (max 0 ((R + 1) / 2)).toNat = 0 := by omega
    rw [h0]
    refine ⟨rfl, ?_⟩
    intro j hj
    rw [block_val, loop_passes_nonpos R hR, Function.iterate_zero, id,
      feed_forward_getD _ _ j (by simpa [init_matrix] using hj) (by simpa [init_matrix] using hj)]
    congr 1
    omega

theorem C20_round_loop_count_witness :
    ∃ P out, spec_rounds (max 0 (((7 : Int) + 1) / 2)).toNat (init_matrix demo_key fixed_nonce 1) =
        some P ∧
      build_block demo_key fixed_nonce 1 7 = some out ∧
      out = feed_forward (init_matrix demo_key fixed_nonce 1) P ∧
      (∀ k : Int, 0 < k →
        build_block demo_key fixed_nonce 1 (2 * k - 1) = build_block demo_key fixed_nonce 1 (2 * k)) ∧
      ((7 : Int) ≤ 0 → P = init_matrix demo_key fixed_nonce 1 ∧
        ∀ j, j < 16 →
          out.getD j 0 = (2 * (init_matrix demo_key fixed_nonce 1).getD j 0) % 2 ^ 32) :=
  C20_round_loop_count demo_key fixed_nonce 1 7 (by decide) (by decide) (by decide)

end ChaCha
